import Mathlib

/-!
Verification development for two ransomware-recovery decryptors
(RCRU64 and Phobos file decryptors).

Byte strings are modelled as `List Nat` (each element a byte value).
Library cryptographic primitives (AES block/GCM operations, the UTF-16
decoder) are not part of this repository; they are taken as function
parameters, constrained only where the code relies on a property of
them (for instance length preservation).  Everything else is
transcribed from the Python source.
-/

namespace Spec2Proof

/-! ## Byte-string utilities (Python slicing and file I/O semantics) -/

/-- Python slice b[p : p+n]. -/
def slice (l : List Nat) (p n : Nat) : List Nat := (l.drop p).take n

/-- Python slice b[len-n :] (the last n bytes). -/
def lastN (l : List Nat) (n : Nat) : List Nat := l.drop (l.length - n)

/-- Truncating the last n bytes of a file (f.truncate(size - n)). -/
def dropLastN (l : List Nat) (n : Nat) : List Nat := l.take (l.length - n)

/-- Writing bytes b at absolute position p of a file opened rb+:
overwrites in place, zero-fills any gap when seeking past the end,
extends the file when the write runs past the end. -/
def writeAt (f : List Nat) (p : Nat) (b : List Nat) : List Nat :=
  (f.take p ++ List.replicate (p - f.length) 0) ++ b ++ f.drop (p + b.length)

/-- Little-endian value of a byte string (int.from_bytes(l, 'little')). -/
def leBytes (l : List Nat) : Nat := l.foldr (fun b acc => b + 256 * acc) 0

/-- Little-endian 32-bit field at offset p (struct '<L'). -/
def leU32 (l : List Nat) (p : Nat) : Nat := leBytes (slice l p 4)

/-- Little-endian 64-bit field at offset p (struct '<Q'). -/
def leU64 (l : List Nat) (p : Nat) : Nat := leBytes (slice l p 8)

/-- Big-endian serialization of v into n bytes (v.to_bytes(n, 'big')). -/
def toBytesBE (n v : Nat) : List Nat :=
  (List.range n).map (fun i => (v >>> (8 * (n - 1 - i))) &&& 0xFF)

/-- First occurrence of a pattern in a byte string (bytes.find). -/
def bytesFind (hay pat : List Nat) : Option Nat :=
  (List.range (hay.length + 1 - pat.length)).find? (fun i => slice hay i pat.length = pat)

/-! ## RCRU64: constants (rcru64_decrypt_file.py) -/

def METADATA_MARKER : List Nat := [0x77, 0x65, 0x6E, 0x66, 0x3D]

def METADATA_MARKER2 : List Nat := [0x26, 0x34, 0x72, 0x2A, 0x33, 0x64]

def RSA_KEY_SIZE : Nat := 256

def AES_BLOCK_SIZE : Nat := 16

def CHUNK_ENC_NONCE_SIZE : Nat := 12

def FULL_ENC_NONCE_SIZE1 : Nat := 12

def FULL_ENC_NONCE_SIZE2 : Nat := 32

def FAST_ENC_NONCE_SIZE : Nat := 32

def MAX_METADATA_SIZE : Nat := 0x12C

def MIN_METADATA_SIZE : Nat := RSA_KEY_SIZE + METADATA_MARKER.length

def ADDITIONAL_DATA_SIZE : Nat := 1

def MIN_BIG_FILE_SIZE : Nat := 0x1F4000

def ENC_BLOCK_SIZE : Nat := 0x7D000

def FIRST_ENC_BLOCK_SIZE : Nat := 0x2D2A8

/-! ## RCRU64: 64-bit pseudo random number generator -/

def MASK64 : Nat := 0xFFFFFFFFFFFFFFFF

def rol64 (v s : Nat) : Nat := ((v <<< s) &&& MASK64) ||| ((v &&& MASK64) >>> (64 - s))

def ror64 (v s : Nat) : Nat := (v >>> s) ||| ((v <<< (64 - s)) &&& MASK64)

def RND64_A1 : Nat := 4815

def RND64_A2 : Nat := 4815

/-- State bytes b'sxuojgdg'. -/
def RND64_INIT_STATE_DATA : List Nat := [0x73, 0x78, 0x75, 0x6F, 0x6A, 0x67, 0x64, 0x67]

/-- Transcription of rnd64_seed. -/
def rnd64_seed (state64 a1 a2 : Nat) : Nat × Nat :=
  let x1 := (state64 + 0xDEADBEEFDEADBEEF) &&& MASK64
  let y1 := rol64 x1 15
  let x2 := ((x1 ^^^ 0xE6ADBEEFDEADBEEF) + y1) &&& MASK64
  let y2 := ror64 x2 12
  let x3 := ((a1 ^^^ x2) + y2) &&& MASK64
  let y3 := rol64 x3 26
  let x4 := ((a2 ^^^ x3) + y3) &&& MASK64
  let y4 := ror64 x4 13
  let x5 := ((y1 ^^^ x4) + y4) &&& MASK64
  let y5 := rol64 x5 28
  let x6 := ((y2 ^^^ x5) + y5) &&& MASK64
  let y6 := rol64 x6 9
  let x7 := ((y3 ^^^ x6) + y6) &&& MASK64
  let y7 := ror64 x7 17
  let x8 := ((y4 ^^^ x7) + y7) &&& MASK64
  let y8 := ror64 x8 10
  let x9 := ((y5 ^^^ x8) + y8) &&& MASK64
  let x10 := ((y6 ^^^ x9) + ror64 x9 32) &&& MASK64
  let x11 := ((y7 ^^^ x10) + rol64 x10 25) &&& MASK64
  let y12 := ror64 x11 1
  let x12 := ((y8 ^^^ x11) + y12) &&& MASK64
  (y12, x12)

/-- Transcription of rnd64data: state read little-endian from the first
8 bytes, output serialized big-endian into 8 bytes. -/
def rnd64data (state64_data : List Nat) : List Nat :=
  toBytesBE 8 (rnd64_seed (leBytes (state64_data.take 8)) RND64_A1 RND64_A2).1

/-! ## RCRU64: decrypt_file, chunked decryption loops

The chunk-encryption loop (decrypt_file lines 353-388) and the
small-file multi-block loop (lines 259-293) are the same loop up to the
constants used: chunk size, chunk spacing (zero in the multi-block
mode) and the length prefix taken from the key-blob nonce for the first
chunk.  The AES-GCM decryption primitive is a parameter gcm taking the
key, the nonce and the ciphertext. -/

def chunkLoopSrc (gcm : List Nat → List Nat → List Nat → List Nat) (key : List Nat)
    (encSize chunkSize chunkSpace : Nat) (st : List Nat) (pos : Nat) (f : List Nat) :
    List Nat :=
  if pos < encSize then
    let encData := slice f pos (min (encSize - pos) chunkSize)
    if hd : encData = [] then f
    else
      let st2 := rnd64data st
      let nonce := st2 ++ st2.drop 4
      chunkLoopSrc gcm key encSize chunkSize chunkSpace st2
        (pos + (chunkSize + chunkSpace)) (writeAt f pos (gcm key nonce encData))
  else f
termination_by encSize - pos
decreasing_by
  have hmin : min (encSize - pos) chunkSize ≠ 0 := by
    intro h0
    apply hd
    show slice f pos (min (encSize - pos) chunkSize) = []
    simp only [slice, h0, List.take_zero]
  simp only [Nat.min_def] at hmin
  split at hmin <;> omega

/-- First chunk (nonce taken from the key blob, truncated to nonceLen)
followed by the loop over the later chunks, as in the source. -/
def gcmChunkedDecrypt (gcm : List Nat → List Nat → List Nat → List Nat)
    (key keyNonce : List Nat) (nonceLen encSize chunkSize chunkSpace : Nat)
    (f : List Nat) : List Nat :=
  let d := slice f 0 (min encSize chunkSize)
  let f1 := writeAt f 0 (gcm key (keyNonce.take nonceLen) d)
  chunkLoopSrc gcm key encSize chunkSize chunkSpace RND64_INIT_STATE_DATA
    (chunkSize + chunkSpace) f1

/-- Iterated sequencer output: state before the first step, then one
rnd64data application per step, each step seeded from the previous
step's output. -/
def rnd64iter : Nat → List Nat
  | 0 => RND64_INIT_STATE_DATA
  | j + 1 => rnd64data (rnd64iter j)

/-- Nonce for the chunk with index j (j counted from 0 for the first
chunk): the 8-byte sequencer output concatenated with its last 4
bytes. -/
def seqNonce (j : Nat) : List Nat := rnd64iter j ++ (rnd64iter j).drop 4

/-- The chunk loop as the specification states it: the nonce of the
chunk at index j is seqNonce j, a pure function of the chunk index. -/
def chunkLoopSpec (gcm : List Nat → List Nat → List Nat → List Nat) (key : List Nat)
    (encSize chunkSize chunkSpace j pos : Nat) (f : List Nat) : List Nat :=
  if pos < encSize then
    let encData := slice f pos (min (encSize - pos) chunkSize)
    if hd : encData = [] then f
    else
      chunkLoopSpec gcm key encSize chunkSize chunkSpace (j + 1)
        (pos + (chunkSize + chunkSpace)) (writeAt f pos (gcm key (seqNonce j) encData))
  else f
termination_by encSize - pos
decreasing_by
  have hmin : min (encSize - pos) chunkSize ≠ 0 := by
    intro h0
    apply hd
    show slice f pos (min (encSize - pos) chunkSize) = []
    simp only [slice, h0, List.take_zero]
  simp only [Nat.min_def] at hmin
  split at hmin <;> omega

/-- Chunked decryption as the specification states it. -/
def gcmChunkedDecryptSpec (gcm : List Nat → List Nat → List Nat → List Nat)
    (key keyNonce : List Nat) (nonceLen encSize chunkSize chunkSpace : Nat)
    (f : List Nat) : List Nat :=
  let d := slice f 0 (min encSize chunkSize)
  let f1 := writeAt f 0 (gcm key (keyNonce.take nonceLen) d)
  chunkLoopSpec gcm key encSize chunkSize chunkSpace 1 (chunkSize + chunkSpace) f1

/-! ## RCRU64: decrypt_file, fast encryption (big file) branch -/

/-- Transcription of the fast-encryption big-file branch of
decrypt_file (lines 324-351).  fastNonce is the externally supplied
FAST_ENC_NONCE. -/
def fastBigDecrypt (gcm : List Nat → List Nat → List Nat → List Nat)
    (key keyNonce fastNonce : List Nat) (encSize : Nat) (f : List Nat) : List Nat :=
  let d1 := slice f 0 (min encSize (FIRST_ENC_BLOCK_SIZE - AES_BLOCK_SIZE))
  let f1 := writeAt f 0 (gcm key (keyNonce.take FAST_ENC_NONCE_SIZE) d1)
  let pos := encSize - ENC_BLOCK_SIZE
  let d2 := slice f1 pos (min encSize (ENC_BLOCK_SIZE - AES_BLOCK_SIZE))
  writeAt f1 pos (gcm key fastNonce d2)

/-! ## RCRU64: decrypt_file, mode selection -/

inductive RcMode where
  | chunked : RcMode
  | smallSingle : RcMode
  | smallMulti : RcMode
  | fastBig : RcMode
deriving DecidableEq

/-- Mode selection of decrypt_file: the chunk-info marker selects chunk
encryption; otherwise the adjusted plaintext-region size fileSize is
tiered against MIN_BIG_FILE_SIZE and ENC_BLOCK_SIZE (lines 245-257 and
295-297). -/
def selectRcMode (chuncEnc : Bool) (fileSize : Nat) : RcMode :=
  if chuncEnc then RcMode.chunked
  else if fileSize < MIN_BIG_FILE_SIZE then
    if fileSize > ENC_BLOCK_SIZE then RcMode.smallMulti else RcMode.smallSingle
  else RcMode.fastBig

/-! ## RCRU64: decrypt_file, end-marker strip and early validation -/

inductive EarlyResult where
  | fail : List Nat → EarlyResult
  | proceed : List Nat → Nat → List Nat → EarlyResult
deriving DecidableEq

/-- Transcription of the opening of decrypt_file (lines 133-165): the
trailing METADATA_MARKER2 check and truncation happen before any other
validation, so the truncation persists when a later check fails.  On
failure the result carries the file content as left on disk; on success
it carries the file content, the adjusted size and the metadata tail
after the marker. -/
def decryptFileEarly (f : List Nat) : EarlyResult :=
  if f.length < METADATA_MARKER2.length then EarlyResult.fail f
  else
    let stripped := lastN f METADATA_MARKER2.length = METADATA_MARKER2
    let f1 := if stripped then dropLastN f METADATA_MARKER2.length else f
    if f1.length < MIN_METADATA_SIZE then EarlyResult.fail f1
    else
      let size := min f1.length MAX_METADATA_SIZE
      let metadata := lastN f1 size
      match bytesFind metadata METADATA_MARKER with
      | none => EarlyResult.fail f1
      | some pos =>
          EarlyResult.proceed f1 (f1.length - (size - pos))
            (metadata.drop (pos + METADATA_MARKER.length))

/-! ## Phobos decryptor (phobos_decrypt_file2.py)

Failure behaviour is modelled with Except: Except.ok carries the
boolean result of decrypt_file2 together with the content written to
the output path (none when no output file was created); Except.error
carries an uncaught Python exception (struct.error, IndexError,
ValueError, UnicodeDecodeError, OSError). -/

inductive PyExc where
  | structError : PyExc
  | indexError : PyExc
  | valueError : PyExc
  | unicodeError : PyExc
  | osError : PyExc
deriving DecidableEq

namespace Phobos

def METADATA_SIZE : Nat := 0xB2

def AES_IV_POS : Nat := 0x14

def AES_IV_SIZE : Nat := 16

def PADDING_SIZE_POS : Nat := 0x24

def ENC_KEY_DATA_POS : Nat := 0x28

def RSA_KEY_SIZE : Nat := 128

def FOOTER_SIZE_POS : Nat := 0xA8

def ATTACKER_ID_POS : Nat := 0xAC

def ATTACKER_ID_SIZE : Nat := 6

def AES_KEY_SIZE : Nat := 32

def KEY_ENTRY_SIZE : Nat := RSA_KEY_SIZE + AES_KEY_SIZE

def KEY_DATA_XOR : Nat := 0x17F31AAB

def ENC_MODE_POS : Nat := 4

def ORIG_FILENAME_POS_POS : Nat := 0x18

def ENC_MODE1_MAGIC : Nat := 0xAF77BC0F

def ENC_MODE2_MAGIC : Nat := 0xF0A75E12

def ENC_BLOCK_SIZE : Nat := 0xD0000

/-- Fallible struct.unpack_from of one '<L' field. -/
def unpackU32 (l : List Nat) (p : Nat) : Except PyExc Nat :=
  if p + 4 ≤ l.length then Except.ok (leU32 l p) else Except.error PyExc.structError

/-- Fallible struct.unpack_from of one '<Q' field. -/
def unpackU64 (l : List Nat) (p : Nat) : Except PyExc Nat :=
  if p + 8 ≤ l.length then Except.ok (leU64 l p) else Except.error PyExc.structError

/-! ### CRC-32

The standard CRC-32 (reflected polynomial 0xEDB88320, initial value and
final complement 0xFFFFFFFF) computed by binascii.crc32, in its
byte-at-a-time table form. -/

def crc32Step (x : Nat) : Nat := if x % 2 = 1 then (x >>> 1) ^^^ 0xEDB88320 else x >>> 1

def crc32Table (i : Nat) : Nat := crc32Step^[8] i

def crc32Update (crc b : Nat) : Nat := (crc >>> 8) ^^^ crc32Table ((crc ^^^ b) &&& 0xFF)

def crc32 (data : List Nat) : Nat := (data.foldl crc32Update 0xFFFFFFFF) ^^^ 0xFFFFFFFF

/-! ### Key lookup (decrypt_file2 lines 88-96) -/

/-- Scan of the keystore at stride KEY_ENTRY_SIZE: the Python loop
for i in range(0, len(key_data), KEY_ENTRY_SIZE) with first-match
break, falling through to failure.  Structural recursion on a fuel
argument large enough to cover the scan. -/
def findKeyLoop (kd ek : List Nat) : Nat → Nat → Option (List Nat)
  | 0, _ => none
  | fuel + 1, i =>
    if i < kd.length then
      if slice kd i RSA_KEY_SIZE = ek then
        some (slice kd (i + RSA_KEY_SIZE) AES_KEY_SIZE)
      else findKeyLoop kd ek fuel (i + KEY_ENTRY_SIZE)
    else none

def findKey (kd ek : List Nat) : Option (List Nat) := findKeyLoop kd ek (kd.length + 1) 0

/-- The key lookup as the specification states it: the symmetric key of
the first keystore entry (entries enumerated in order) whose wrapped
field equals the container's wrapped key bytes. -/
def firstEntryKeySpec (kd ek : List Nat) : Option (List Nat) :=
  ((List.range ((kd.length + (KEY_ENTRY_SIZE - 1)) / KEY_ENTRY_SIZE)).find?
      (fun j => decide (slice kd (j * KEY_ENTRY_SIZE) RSA_KEY_SIZE = ek))).map
    (fun j => slice kd (j * KEY_ENTRY_SIZE + RSA_KEY_SIZE) AES_KEY_SIZE)

/-! ### CBC decryption (the PyCryptodome AES-CBC object)

The AES block decryption is a parameter dec : block → block.  CBC
decryption of 16-aligned data xors each decrypted block with the
previous ciphertext block (the IV for the first); the object's chain
state after a call is the last ciphertext block processed. -/

def zipXor (a b : List Nat) : List Nat := List.zipWith (fun x y => x ^^^ y) a b

/-- Block recursion with a fuel argument (one unit per 16-byte block;
ct.length units are always enough). -/
def cbcAux (dec : List Nat → List Nat) : Nat → List Nat → List Nat → List Nat
  | 0, _, _ => []
  | fuel + 1, iv, ct =>
    if ct = [] then []
    else zipXor iv (dec (ct.take 16)) ++ cbcAux dec fuel (ct.take 16) (ct.drop 16)

def cbcDecryptBlocks (dec : List Nat → List Nat) (iv ct : List Nat) : List Nat :=
  cbcAux dec ct.length iv ct

/-! ### Keystore loading (main, lines 226-236) -/

/-- The keystore payload: count * KEY_ENTRY_SIZE bytes after the
8-byte header, the count being the first header word XOR-decoded with
KEY_DATA_XOR. -/
def keystorePayload (raw : List Nat) : List Nat :=
  slice raw 8 ((leU32 raw 0 ^^^ KEY_DATA_XOR) * KEY_ENTRY_SIZE)

/-- Keystore loader: the (count, crc) header pair is XOR-decoded with
KEY_DATA_XOR; the keystore is accepted exactly when the decoded crc
matches the payload CRC-32.  A none result is the fatal sys.exit(1)
path taken before any decryption. -/
def loadKeystore (raw : List Nat) : Option (List Nat) :=
  if leU32 raw 4 ^^^ KEY_DATA_XOR = crc32 (keystorePayload raw) then
    some (keystorePayload raw)
  else none

/-! ### Original-filename terminator scan (decrypt_file2 lines 139-143) -/

/-- The Python loop for i in range(pos, len(endblock_data), 2) looking
for a double zero byte; reading endblock_data[i + 1] when i is the last
index raises IndexError. -/
def findTerminatorLoop (data : List Nat) (i : Nat) : Except PyExc (Option Nat) :=
  if i < data.length then
    if data.getD i 0 = 0 then
      if i + 1 < data.length then
        if data.getD (i + 1) 0 = 0 then Except.ok (some i)
        else findTerminatorLoop data (i + 2)
      else Except.error PyExc.indexError
    else findTerminatorLoop data (i + 2)
  else Except.ok none
termination_by data.length - i

/-! ### Scattered-chunk mode (decrypt_file2 lines 152-182) -/

/-- The decrypted chunk payload: num_chunks * chunk_size bytes starting
after the 0x20-byte header and the num_chunks * 8 byte offset table. -/
def chunkData (endblock : List Nat) : List Nat :=
  slice endblock (0x20 + (leU32 endblock 0x0C) * 8)
    ((leU32 endblock 0x0C) * (leU32 endblock 0x10))

/-- Write loop of scattered-chunk mode: chunk i goes to the absolute
offset unpacked from the table entry at 0x20 + i * 8. -/
def mode1WriteLoop (endblock : List Nat) (chunkSize : Nat) (cd : List Nat) (n i : Nat)
    (f : List Nat) : Except PyExc (List Nat) :=
  if i < n then
    match unpackU64 endblock (0x20 + i * 8) with
    | Except.error e => Except.error e
    | Except.ok p =>
        mode1WriteLoop endblock chunkSize cd n (i + 1)
          (writeAt f p (slice cd (i * chunkSize) chunkSize))
  else Except.ok f
termination_by n - i

/-- Scattered-chunk mode applied to the copied file: parse the chunk
header, check the payload CRC-32 before any write (returning failure
with the copy untouched on mismatch), then run the write loop and
truncate the footer. -/
def mode1Apply (endblock file : List Nat) (footerSize : Nat) :
    Except PyExc (Bool × List Nat) :=
  if 0x0C + 12 ≤ endblock.length then
    if leU32 endblock 0x14 ≠ crc32 (chunkData endblock) then Except.ok (false, file)
    else
      match mode1WriteLoop endblock (leU32 endblock 0x10) (chunkData endblock)
          (leU32 endblock 0x0C) 0 file with
      | Except.error e => Except.error e
      | Except.ok out =>
          if footerSize ≤ out.length then Except.ok (true, dropLastN out footerSize)
          else Except.error PyExc.osError
  else Except.error PyExc.structError

/-! ### Single-stream mode (decrypt_file2 lines 188-208) -/

/-- Single-stream loop: full ENC_BLOCK_SIZE blocks are CBC-decrypted
with the chain threaded through; for the final short block the Python
slices enc_data[:-excess] and enc_data[-excess:] with
excess = len(enc_data) &&& 0xF are reproduced exactly, including the
excess = 0 case where [:-0] is empty and [-0:] is the whole block. -/
def mode2Loop (dec : List Nat → List Nat) (iv input : List Nat) : List Nat :=
  if ENC_BLOCK_SIZE ≤ input.length then
    cbcDecryptBlocks dec iv (input.take ENC_BLOCK_SIZE) ++
      mode2Loop dec (lastN (input.take ENC_BLOCK_SIZE) 16) (input.drop ENC_BLOCK_SIZE)
  else
    (if input.length &&& 0xF = 0 then []
     else cbcDecryptBlocks dec iv (input.take (input.length - (input.length &&& 0xF)))) ++
    (if input.length &&& 0xF = 0 then input
     else input.drop (input.length - (input.length &&& 0xF)))
termination_by input.length
decreasing_by
  have he : ENC_BLOCK_SIZE = 0xD0000 := rfl
  simp only [List.length_drop]
  omega

/-- Single-stream decryption as claim C5 states it: CBC decryption of
the input sequentially in ENC_BLOCK_SIZE blocks from offset 0, except
that for the final short block, when its byte count is not a multiple
of 16, only the 16-aligned leading portion is decrypted and the
unaligned tail is copied unmodified. -/
def specSingleStream (dec : List Nat → List Nat) (iv input : List Nat) : List Nat :=
  if ENC_BLOCK_SIZE ≤ input.length then
    cbcDecryptBlocks dec iv (input.take ENC_BLOCK_SIZE) ++
      specSingleStream dec (lastN (input.take ENC_BLOCK_SIZE) 16) (input.drop ENC_BLOCK_SIZE)
  else
    cbcDecryptBlocks dec iv (input.take (input.length - input.length % 16)) ++
      input.drop (input.length - input.length % 16)
termination_by input.length
decreasing_by
  have he : ENC_BLOCK_SIZE = 0xD0000 := rfl
  simp only [List.length_drop]
  omega

/-- Single-stream decryption as amended: additionally, when the final
short block's byte count is a nonzero multiple of 16, the entire final
block is copied unmodified (nothing of it is decrypted). -/
def specSingleStreamAmended (dec : List Nat → List Nat) (iv input : List Nat) : List Nat :=
  if ENC_BLOCK_SIZE ≤ input.length then
    cbcDecryptBlocks dec iv (input.take ENC_BLOCK_SIZE) ++
      specSingleStreamAmended dec (lastN (input.take ENC_BLOCK_SIZE) 16) (input.drop ENC_BLOCK_SIZE)
  else if input.length % 16 = 0 then input
  else
    cbcDecryptBlocks dec iv (input.take (input.length - input.length % 16)) ++
      input.drop (input.length - input.length % 16)
termination_by input.length
decreasing_by
  have he : ENC_BLOCK_SIZE = 0xD0000 := rfl
  simp only [List.length_drop]
  omega

/-! ### The container pipeline (decrypt_file2, whole function)

The AES block decryption is a parameter dec taking the key and a
ciphertext block; udec is the UTF-16 decoder, returning none on a
decode error. -/

def metadataOf (file : List Nat) : List Nat :=
  slice file (file.length - METADATA_SIZE) METADATA_SIZE

def encKeyDataOf (file : List Nat) : List Nat :=
  slice (metadataOf file) ENC_KEY_DATA_POS RSA_KEY_SIZE

def footerSizeOf (file : List Nat) : Nat := leU32 (metadataOf file) FOOTER_SIZE_POS

def aesIvOf (file : List Nat) : List Nat :=
  slice (metadataOf file) AES_IV_POS AES_IV_SIZE

def paddingSizeOf (file : List Nat) : Nat := leU32 (metadataOf file) PADDING_SIZE_POS

/-- Decrypted end block with encryption info. -/
def endblockOf (dec : List Nat → List Nat → List Nat) (kd file : List Nat) : List Nat :=
  cbcDecryptBlocks (dec ((findKey kd (encKeyDataOf file)).getD []))
    (aesIvOf file)
    (slice file (file.length - footerSizeOf file) (footerSizeOf file - METADATA_SIZE))

/-- Transcription of decrypt_file2.  The result carries the boolean
return value and the content of the output file (none when none was
created); uncaught Python exceptions are Except.error values. -/
def decrypt_file2 (dec : List Nat → List Nat → List Nat)
    (udec : List Nat → Option (List Nat)) (file kd : List Nat) :
    Except PyExc (Bool × Option (List Nat)) :=
  if file.length < METADATA_SIZE then Except.ok (false, none)
  else
    match findKey kd (encKeyDataOf file) with
    | none => Except.ok (false, none)
    | some aesKey =>
      if footerSizeOf file ≤ METADATA_SIZE then Except.ok (false, none)
      else if (footerSizeOf file - METADATA_SIZE) &&& 0xF ≠ 0 then Except.ok (false, none)
      else if file.length < footerSizeOf file then Except.ok (false, none)
      else if ¬ (aesKey.length = 16 ∨ aesKey.length = 24 ∨ aesKey.length = 32) then
        Except.error PyExc.valueError
      else if ENC_MODE_POS + 8 ≤ (endblockOf dec kd file).length then
        if (if leU32 (endblockOf dec kd file) ENC_MODE_POS = 1 then
              leU32 (endblockOf dec kd file) (ENC_MODE_POS + 4) ≠ ENC_MODE1_MAGIC
            else if leU32 (endblockOf dec kd file) ENC_MODE_POS = 2 then
              leU32 (endblockOf dec kd file) (ENC_MODE_POS + 4) ≠ ENC_MODE2_MAGIC
            else True) then Except.ok (false, none)
        else
          match unpackU32 (endblockOf dec kd file) ORIG_FILENAME_POS_POS with
          | Except.error e => Except.error e
          | Except.ok origFilenamePos =>
            match findTerminatorLoop (endblockOf dec kd file) origFilenamePos with
            | Except.error e => Except.error e
            | Except.ok none => Except.ok (false, none)
            | Except.ok (some ti) =>
              match udec (slice (endblockOf dec kd file) origFilenamePos
                  (ti - origFilenamePos)) with
              | none => Except.error PyExc.unicodeError
              | some _ =>
                if leU32 (endblockOf dec kd file) ENC_MODE_POS = 1 then
                  match mode1Apply (endblockOf dec kd file) file (footerSizeOf file) with
                  | Except.error e => Except.error e
                  | Except.ok (b, out) => Except.ok (b, some out)
                else
                  if footerSizeOf file + paddingSizeOf file ≤
                      (mode2Loop (dec aesKey) (aesIvOf file) file).length then
                    Except.ok (true, some (dropLastN (mode2Loop (dec aesKey) (aesIvOf file) file)
                      (footerSizeOf file + paddingSizeOf file)))
                  else Except.error PyExc.osError
      else Except.error PyExc.structError

/-- Concrete end block for the phobos_scattered_placement witness: two
chunks of size 2, table offsets 10 and 0 (reverse order), payload
[1, 2, 3, 4]. -/
def wEndblock : List Nat :=
  List.replicate 0x0C 0 ++ [2, 0, 0, 0] ++ [2, 0, 0, 0] ++ List.replicate 0x0C 0 ++
    [10, 0, 0, 0, 0, 0, 0, 0] ++ [0, 0, 0, 0, 0, 0, 0, 0] ++ [1, 2, 3, 4]

/-- Concrete keystore for the phobos_keystore_gate witness: count 1,
payload of 160 zero bytes, header fields XOR-obfuscated. -/
def wKeystore : List Nat :=
  [0xAA, 0x1A, 0xF3, 0x17, 0xC8, 0x49, 0xF4, 0xBD] ++ List.replicate 160 0

/-- Concrete encrypted container for the C9 counterexample: a 194-byte
file whose footer declares a 16-byte end block, so that reading the
original-filename offset at 0x18 runs past the end of the end block
(struct.error).  The end block decodes (under a per-block identity
cipher and a zero IV) to encryption mode 2 with the correct magic. -/
def cFile : List Nat :=
  [0, 0, 0, 0, 2, 0, 0, 0, 0x12, 0x5E, 0xA7, 0xF0, 0, 0, 0, 0] ++
    (List.replicate 0x14 0 ++ List.replicate 16 0 ++ List.replicate 4 0 ++
      List.replicate 128 5 ++ [0xC2, 0, 0, 0] ++ List.replicate 6 0)

/-- Concrete well-formed container for the C9 witness: a 210-byte file
in single-stream mode whose end block decodes to mode 2 with the
correct magic and an even filename offset. -/
def wFile : List Nat :=
  [0, 0, 0, 0, 2, 0, 0, 0, 0x12, 0x5E, 0xA7, 0xF0, 0, 0, 0, 0] ++
    [0, 0, 0, 0, 2, 0, 0, 0, 0x0E, 0x5E, 0xA7, 0xF0, 0, 0, 0, 0] ++
    (List.replicate 0x14 0 ++ List.replicate 16 0 ++ List.replicate 4 0 ++
      List.replicate 128 5 ++ [0xD2, 0, 0, 0] ++ List.replicate 6 0)

end Phobos

/-! ## Properties -/

lemma toBytesBE_length (n v : Nat) : (toBytesBE n v).length = n := by
  simp [toBytesBE]

lemma rnd64data_length (d : List Nat) : (rnd64data d).length = 8 := by
  simp [rnd64data, toBytesBE_length]

lemma chunkLoop_src_eq_spec (gcm : List Nat → List Nat → List Nat → List Nat)
    (key : List Nat) (encSize chunkSize chunkSpace : Nat) :
    ∀ (n j pos : Nat) (f : List Nat), encSize - pos ≤ n →
      chunkLoopSrc gcm key encSize chunkSize chunkSpace (rnd64iter j) pos f =
      chunkLoopSpec gcm key encSize chunkSize chunkSpace (j + 1) pos f := by
  intro n
  induction n with
  | zero =>
      intro j pos f h
      have hnb : ¬ pos < encSize := by omega
      rw [chunkLoopSrc, chunkLoopSpec]
      simp [hnb]
  | succ n ih =>
      intro j pos f h
      rw [chunkLoopSrc, chunkLoopSpec]
      by_cases hp : pos < encSize
      · simp only [hp, if_true]
        by_cases hd : slice f pos (min (encSize - pos) chunkSize) = []
        · simp [hd]
        · simp only [hd, dite_false]
          have hcs : chunkSize ≠ 0 := by
            intro h0
            apply hd
            have : min (encSize - pos) chunkSize = 0 := by omega
            simp [slice, this]
          have hrec : encSize - (pos + (chunkSize + chunkSpace)) ≤ n := by omega
          have hstep : rnd64data (rnd64iter j) = rnd64iter (j + 1) := rfl
          rw [hstep]
          have hnonce : rnd64iter (j + 1) ++ (rnd64iter (j + 1)).drop 4 = seqNonce (j + 1) := rfl
          rw [hnonce]
          exact ih (j + 1) (pos + (chunkSize + chunkSpace)) _ hrec
      · simp [hp]

/-- C1: in chunked-GCM mode (and the small-file multi-block sub-mode,
which runs the same loop with chunkSize = ENC_BLOCK_SIZE and zero chunk
spacing, and the same 12-byte nonce length FULL_ENC_NONCE_SIZE1 =
CHUNK_ENC_NONCE_SIZE), the first chunk is decrypted with the key-blob
nonce truncated to 12 bytes, and the chunk at index j ≥ 1 is decrypted
with the 12-byte nonce rnd64iter j ++ (rnd64iter j).drop 4: the 8-byte
output of the j-th rnd64data application (state before the first step
being b'sxuojgdg', each later step seeded from the previous output)
concatenated with its last 4 bytes. -/
theorem rcru64_chunk_nonce_sequence :
    (∀ j : Nat, (rnd64iter (j + 1)).length = 8) ∧
    (∀ j : Nat, (seqNonce (j + 1)).length = 12) ∧
    (∀ (gcm : List Nat → List Nat → List Nat → List Nat) (key keyNonce : List Nat)
       (encSize chunkSize chunkSpace : Nat) (f : List Nat),
      gcmChunkedDecrypt gcm key keyNonce CHUNK_ENC_NONCE_SIZE encSize chunkSize chunkSpace f =
      gcmChunkedDecryptSpec gcm key keyNonce CHUNK_ENC_NONCE_SIZE encSize chunkSize
        chunkSpace f) := by
  refine ⟨fun j => rnd64data_length _, fun j => ?_, ?_⟩
  · have h8 : (rnd64iter (j + 1)).length = 8 := rnd64data_length _
    simp [seqNonce, h8]
  · intro gcm key keyNonce encSize chunkSize chunkSpace f
    unfold gcmChunkedDecrypt gcmChunkedDecryptSpec
    exact chunkLoop_src_eq_spec gcm key encSize chunkSize chunkSpace
      (encSize - (chunkSize + chunkSpace)) 0 (chunkSize + chunkSpace) _ (le_refl _)

/-! ## File-write lemmas -/

lemma slice_length (l : List Nat) (p n : Nat) :
    (slice l p n).length = min n (l.length - p) := by
  simp [slice]

lemma slice_getElem? (l : List Nat) (p n i : Nat) :
    (slice l p n)[i]? = if i < n then l[p + i]? else none := by
  by_cases h : i < n
  · rw [slice, List.getElem?_take_of_lt h, List.getElem?_drop, if_pos h]
  · rw [if_neg h, List.getElem?_eq_none]
    simp only [slice, List.length_take, List.length_drop]
    omega

lemma writeAt_head_len (f : List Nat) (p : Nat) :
    (f.take p ++ List.replicate (p - f.length) 0).length = max p (min p f.length) := by
  simp only [List.length_append, List.length_take, List.length_replicate]
  omega

lemma writeAt_length (f : List Nat) (p : Nat) (b : List Nat) :
    (writeAt f p b).length = max (p + b.length) f.length := by
  simp only [writeAt, List.length_append, List.length_take, List.length_replicate,
    List.length_drop]
  omega

lemma writeAt_getElem_lt (f : List Nat) (p : Nat) (b : List Nat) (k : Nat)
    (hk : k < p) (hkf : k < f.length) : (writeAt f p b)[k]? = f[k]? := by
  rw [writeAt, List.append_assoc, List.append_assoc]
  rw [List.getElem?_append_left (by simp; omega)]
  rw [List.getElem?_take_of_lt hk]

lemma writeAt_getElem_ge (f : List Nat) (p : Nat) (b : List Nat) (k : Nat)
    (hk : p + b.length ≤ k) : (writeAt f p b)[k]? = f[k]? := by
  have hhead : (f.take p ++ List.replicate (p - f.length) 0).length = max p (min p f.length) :=
    writeAt_head_len f p
  by_cases hpf : p ≤ f.length
  · have h1 : (f.take p ++ List.replicate (p - f.length) 0).length = p := by
      rw [hhead]; omega
    rw [writeAt, List.append_assoc]
    rw [List.getElem?_append_right (by omega : (f.take p ++ List.replicate (p - f.length) 0).length ≤ k)]
    rw [h1]
    rw [List.getElem?_append_right (by omega : b.length ≤ k - p)]
    rw [List.getElem?_drop]
    congr 1
    omega
  · -- p > f.length: the write lands past the end; bytes at k ≥ p + |b| do not exist
    have h1 : (f.take p ++ List.replicate (p - f.length) 0).length = p := by
      rw [hhead]; omega
    rw [writeAt, List.append_assoc]
    rw [List.getElem?_append_right (by omega : (f.take p ++ List.replicate (p - f.length) 0).length ≤ k)]
    rw [h1]
    rw [List.getElem?_append_right (by omega : b.length ≤ k - p)]
    rw [List.getElem?_drop]
    rw [List.getElem?_eq_none (by omega), List.getElem?_eq_none (by omega)]

lemma slice_writeAt_self (f : List Nat) (p : Nat) (b : List Nat) :
    slice (writeAt f p b) p b.length = b := by
  have h1 : (f.take p ++ List.replicate (p - f.length) 0).length = p := by
    simp only [List.length_append, List.length_take, List.length_replicate]
    omega
  rw [writeAt, slice, List.append_assoc, List.drop_left' h1, List.take_left' rfl]

lemma slice_writeAt_disjoint (f : List Nat) (p : Nat) (b : List Nat) (q n : Nat)
    (hq : q + n ≤ f.length) (hdisj : q + n ≤ p ∨ p + b.length ≤ q) :
    slice (writeAt f p b) q n = slice f q n := by
  apply List.ext_getElem?
  intro i
  rw [slice_getElem?, slice_getElem?]
  by_cases hi : i < n
  · rw [if_pos hi, if_pos hi]
    rcases hdisj with h | h
    · exact writeAt_getElem_lt f p b (q + i) (by omega) (by omega)
    · exact writeAt_getElem_ge f p b (q + i) (by omega)
  · rw [if_neg hi, if_neg hi]

/-- Frame property of two writeAt calls: the first region at
offset 0, a later disjoint region, the gap and the suffix. -/
lemma writeAt_two_frame (f w1 w2 : List Nat) (p2 : Nat)
    (h1 : w1.length ≤ p2) (h2 : p2 + w2.length ≤ f.length) :
    slice (writeAt (writeAt f 0 w1) p2 w2) 0 w1.length = w1 ∧
    (∀ k : Nat, w1.length ≤ k → k < p2 → (writeAt (writeAt f 0 w1) p2 w2)[k]? = f[k]?) ∧
    slice (writeAt (writeAt f 0 w1) p2 w2) p2 w2.length = w2 ∧
    (∀ k : Nat, p2 + w2.length ≤ k → (writeAt (writeAt f 0 w1) p2 w2)[k]? = f[k]?) := by
  have hlf1 : (writeAt f 0 w1).length = f.length := by
    rw [writeAt_length]
    omega
  refine ⟨?_, ?_, ?_, ?_⟩
  · have ha : slice (writeAt (writeAt f 0 w1) p2 w2) 0 w1.length =
        slice (writeAt f 0 w1) 0 w1.length := by
      apply slice_writeAt_disjoint
      · omega
      · left
        omega
    rw [ha]
    exact slice_writeAt_self f 0 w1
  · intro k hk1 hk2
    have ha : (writeAt (writeAt f 0 w1) p2 w2)[k]? = (writeAt f 0 w1)[k]? := by
      apply writeAt_getElem_lt
      · omega
      · omega
    rw [ha]
    apply writeAt_getElem_ge
    omega
  · exact slice_writeAt_self (writeAt f 0 w1) p2 w2
  · intro k hk
    have ha : (writeAt (writeAt f 0 w1) p2 w2)[k]? = (writeAt f 0 w1)[k]? := by
      apply writeAt_getElem_ge
      omega
    rw [ha]
    apply writeAt_getElem_ge
    omega

/-- C2: in fast-encryption big-file mode the decryptor touches exactly
two regions.  With a length-preserving GCM primitive and an adjusted
plaintext-region size at or above MIN_BIG_FILE_SIZE, the head region of
FIRST_ENC_BLOCK_SIZE - AES_BLOCK_SIZE bytes at offset 0 becomes the GCM
decryption (under the blob-derived static nonce) of the original head
bytes, the tail region of ENC_BLOCK_SIZE - AES_BLOCK_SIZE bytes at
offset encSize - ENC_BLOCK_SIZE becomes the GCM decryption (under the
external FAST_ENC_NONCE) of the original tail bytes, and every byte
strictly between the two regions, as well as every byte at or past the
end of the tail region, is unchanged. -/
theorem rcru64_fast_big_frame (gcm : List Nat → List Nat → List Nat → List Nat)
    (key keyNonce fastNonce f : List Nat) (encSize : Nat)
    (hlen : ∀ k nn d, (gcm k nn d).length = d.length)
    (hbig : MIN_BIG_FILE_SIZE ≤ encSize) (hfl : encSize ≤ f.length) :
    slice (fastBigDecrypt gcm key keyNonce fastNonce encSize f) 0
        (FIRST_ENC_BLOCK_SIZE - AES_BLOCK_SIZE) =
      gcm key (keyNonce.take FAST_ENC_NONCE_SIZE)
        (slice f 0 (FIRST_ENC_BLOCK_SIZE - AES_BLOCK_SIZE)) ∧
    (∀ k : Nat, FIRST_ENC_BLOCK_SIZE - AES_BLOCK_SIZE ≤ k → k < encSize - ENC_BLOCK_SIZE →
      (fastBigDecrypt gcm key keyNonce fastNonce encSize f)[k]? = f[k]?) ∧
    slice (fastBigDecrypt gcm key keyNonce fastNonce encSize f) (encSize - ENC_BLOCK_SIZE)
        (ENC_BLOCK_SIZE - AES_BLOCK_SIZE) =
      gcm key fastNonce (slice f (encSize - ENC_BLOCK_SIZE) (ENC_BLOCK_SIZE - AES_BLOCK_SIZE)) ∧
    (∀ k : Nat, encSize - AES_BLOCK_SIZE ≤ k →
      (fastBigDecrypt gcm key keyNonce fastNonce encSize f)[k]? = f[k]?) := by
  have eBig : MIN_BIG_FILE_SIZE = 0x1F4000 := rfl
  have eBlk : ENC_BLOCK_SIZE = 0x7D000 := rfl
  have eFst : FIRST_ENC_BLOCK_SIZE = 0x2D2A8 := rfl
  have eAes : AES_BLOCK_SIZE = 16 := rfl
  have hmin1 : min encSize (FIRST_ENC_BLOCK_SIZE - AES_BLOCK_SIZE) =
      FIRST_ENC_BLOCK_SIZE - AES_BLOCK_SIZE := by omega
  have hmin2 : min encSize (ENC_BLOCK_SIZE - AES_BLOCK_SIZE) =
      ENC_BLOCK_SIZE - AES_BLOCK_SIZE := by omega
  have hlw1 : (gcm key (keyNonce.take FAST_ENC_NONCE_SIZE)
      (slice f 0 (FIRST_ENC_BLOCK_SIZE - AES_BLOCK_SIZE))).length =
      FIRST_ENC_BLOCK_SIZE - AES_BLOCK_SIZE := by
    rw [hlen, slice_length]
    omega
  have hlw2 : (gcm key fastNonce
      (slice f (encSize - ENC_BLOCK_SIZE) (ENC_BLOCK_SIZE - AES_BLOCK_SIZE))).length =
      ENC_BLOCK_SIZE - AES_BLOCK_SIZE := by
    rw [hlen, slice_length, Nat.min_def]
    rw [if_pos (by omega)]
  have hd2 : slice
      (writeAt f 0 (gcm key (keyNonce.take FAST_ENC_NONCE_SIZE)
        (slice f 0 (FIRST_ENC_BLOCK_SIZE - AES_BLOCK_SIZE))))
      (encSize - ENC_BLOCK_SIZE) (ENC_BLOCK_SIZE - AES_BLOCK_SIZE) =
      slice f (encSize - ENC_BLOCK_SIZE) (ENC_BLOCK_SIZE - AES_BLOCK_SIZE) := by
    apply slice_writeAt_disjoint
    · omega
    · right
      rw [hlw1]
      omega
  have hdec0 : fastBigDecrypt gcm key keyNonce fastNonce encSize f =
      writeAt
        (writeAt f 0 (gcm key (keyNonce.take FAST_ENC_NONCE_SIZE)
          (slice f 0 (FIRST_ENC_BLOCK_SIZE - AES_BLOCK_SIZE))))
        (encSize - ENC_BLOCK_SIZE)
        (gcm key fastNonce
          (slice
            (writeAt f 0 (gcm key (keyNonce.take FAST_ENC_NONCE_SIZE)
              (slice f 0 (FIRST_ENC_BLOCK_SIZE - AES_BLOCK_SIZE))))
            (encSize - ENC_BLOCK_SIZE) (ENC_BLOCK_SIZE - AES_BLOCK_SIZE))) := by
    unfold fastBigDecrypt
    rw [hmin1, hmin2]
  have hdec : fastBigDecrypt gcm key keyNonce fastNonce encSize f =
      writeAt
        (writeAt f 0 (gcm key (keyNonce.take FAST_ENC_NONCE_SIZE)
          (slice f 0 (FIRST_ENC_BLOCK_SIZE - AES_BLOCK_SIZE))))
        (encSize - ENC_BLOCK_SIZE)
        (gcm key fastNonce
          (slice f (encSize - ENC_BLOCK_SIZE) (ENC_BLOCK_SIZE - AES_BLOCK_SIZE))) := by
    rw [hdec0, hd2]
  rw [hdec]
  obtain ⟨hA, hB, hC, hD⟩ := writeAt_two_frame f
    (gcm key (keyNonce.take FAST_ENC_NONCE_SIZE)
      (slice f 0 (FIRST_ENC_BLOCK_SIZE - AES_BLOCK_SIZE)))
    (gcm key fastNonce (slice f (encSize - ENC_BLOCK_SIZE) (ENC_BLOCK_SIZE - AES_BLOCK_SIZE)))
    (encSize - ENC_BLOCK_SIZE)
    (by rw [hlw1]; omega) (by rw [hlw2]; omega)
  rw [hlw1] at hA hB
  rw [hlw2] at hC hD
  refine ⟨hA, hB, hC, ?_⟩
  intro k hk
  apply hD
  omega

/-- Witness for rcru64_fast_big_frame at a concrete input: a file of
exactly MIN_BIG_FILE_SIZE zero bytes with the identity as gcm
primitive. -/
theorem rcru64_fast_big_frame_witness :
    (fastBigDecrypt (fun _ _ d => d) [] [] [] 0x1F4000
      (List.replicate 0x1F4000 0))[0x1F3FF0]? =
      (List.replicate 0x1F4000 0)[0x1F3FF0]? := by
  have h := rcru64_fast_big_frame (fun _ _ d => d) [] [] []
    (List.replicate 0x1F4000 0) 0x1F4000 (fun _ _ _ => rfl)
    (by norm_num [MIN_BIG_FILE_SIZE]) (by rw [List.length_replicate])
  apply h.2.2.2
  have eAes : AES_BLOCK_SIZE = 16 := rfl
  omega

/-- C6: mode tiering of decrypt_file in the full/fast family: an
adjusted plaintext-region size exactly MIN_BIG_FILE_SIZE selects the
fast big-file path, one byte below selects the small-file path (here
the multi-block sub-path, the size being above ENC_BLOCK_SIZE), a size
exactly ENC_BLOCK_SIZE selects the single-block sub-path, and any size
strictly above ENC_BLOCK_SIZE but below MIN_BIG_FILE_SIZE selects the
multi-block sub-path. -/
theorem rcru64_mode_tiers :
    selectRcMode false MIN_BIG_FILE_SIZE = RcMode.fastBig ∧
    selectRcMode false (MIN_BIG_FILE_SIZE - 1) = RcMode.smallMulti ∧
    selectRcMode false ENC_BLOCK_SIZE = RcMode.smallSingle ∧
    (∀ s : Nat, ENC_BLOCK_SIZE < s → s < MIN_BIG_FILE_SIZE →
      selectRcMode false s = RcMode.smallMulti) := by
  refine ⟨?_, ?_, ?_, ?_⟩
  · simp [selectRcMode]
  · simp [selectRcMode, MIN_BIG_FILE_SIZE, ENC_BLOCK_SIZE]
  · simp [selectRcMode, MIN_BIG_FILE_SIZE, ENC_BLOCK_SIZE]
  · intro s h1 h2
    simp [selectRcMode, h1, h2]

/-- Witness for rcru64_mode_tiers: one byte above ENC_BLOCK_SIZE is in
the multi-block sub-path. -/
theorem rcru64_mode_tiers_witness :
    ENC_BLOCK_SIZE < 0x7D001 ∧ 0x7D001 < MIN_BIG_FILE_SIZE ∧
    selectRcMode false 0x7D001 = RcMode.smallMulti :=
  ⟨by norm_num [ENC_BLOCK_SIZE], by norm_num [MIN_BIG_FILE_SIZE],
    rcru64_mode_tiers.2.2.2 0x7D001 (by norm_num [ENC_BLOCK_SIZE])
      (by norm_num [MIN_BIG_FILE_SIZE])⟩

/-- C10: decrypt_file checks the trailing METADATA_MARKER2 before any
other validation and truncates the file by 6 bytes when it matches;
the truncation persists when the function then fails (metadata too
small, or metadata marker absent), so a failed run can leave the
working file different from its input. -/
theorem rcru64_marker2_strip_persists (f : List Nat)
    (h6 : METADATA_MARKER2.length ≤ f.length)
    (hm : lastN f METADATA_MARKER2.length = METADATA_MARKER2)
    (hfail : f.length - METADATA_MARKER2.length < MIN_METADATA_SIZE ∨
      bytesFind (lastN (dropLastN f METADATA_MARKER2.length)
          (min (f.length - METADATA_MARKER2.length) MAX_METADATA_SIZE))
        METADATA_MARKER = none) :
    decryptFileEarly f = EarlyResult.fail (dropLastN f METADATA_MARKER2.length) ∧
    dropLastN f METADATA_MARKER2.length ≠ f := by
  have hlen : (dropLastN f METADATA_MARKER2.length).length =
      f.length - METADATA_MARKER2.length := by
    simp [dropLastN]
  have hne : dropLastN f METADATA_MARKER2.length ≠ f := by
    intro he
    have := congrArg List.length he
    rw [hlen] at this
    have h2 : (METADATA_MARKER2 : List Nat).length = 6 := rfl
    omega
  refine ⟨?_, hne⟩
  unfold decryptFileEarly
  rw [if_neg (by omega)]
  simp only [hm, if_true, ite_true]
  rcases hfail with hsmall | hnofind
  · rw [if_pos (by rw [hlen]; exact hsmall)]
  · by_cases hsm : (dropLastN f METADATA_MARKER2.length).length < MIN_METADATA_SIZE
    · rw [if_pos hsm]
    · rw [if_neg hsm]
      rw [hlen] at *
      rw [hnofind]

/-- Witness for rcru64_marker2_strip_persists: a 6-byte file equal to
the marker itself is truncated to the empty file and then fails. -/
theorem rcru64_marker2_strip_persists_witness :
    decryptFileEarly METADATA_MARKER2 =
      EarlyResult.fail (dropLastN METADATA_MARKER2 METADATA_MARKER2.length) ∧
    dropLastN METADATA_MARKER2 METADATA_MARKER2.length ≠ METADATA_MARKER2 :=
  rcru64_marker2_strip_persists METADATA_MARKER2 (by decide)
    (by decide) (Or.inl (by decide))

namespace Phobos

lemma cbcAux_fuel_irrel (dec : List Nat → List Nat) :
    ∀ (fuel₁ fuel₂ : Nat) (iv ct : List Nat), ct.length ≤ fuel₁ → ct.length ≤ fuel₂ →
      cbcAux dec fuel₁ iv ct = cbcAux dec fuel₂ iv ct := by
  intro fuel₁
  induction fuel₁ with
  | zero =>
      intro fuel₂ iv ct h1 h2
      have hct : ct = [] := List.length_eq_zero.mp (by omega)
      subst hct
      cases fuel₂ <;> rfl
  | succ fuel ih =>
      intro fuel₂ iv ct h1 h2
      by_cases hct : ct = []
      · subst hct
        cases fuel₂ <;> rfl
      · have hpos : 0 < ct.length := List.length_pos.mpr hct
        obtain ⟨m, hm⟩ : ∃ m, fuel₂ = m + 1 := ⟨fuel₂ - 1, by omega⟩
        subst hm
        rw [cbcAux, cbcAux, if_neg hct, if_neg hct]
        have hd : (ct.drop 16).length ≤ fuel := by
          simp only [List.length_drop]
          omega
        have hd2 : (ct.drop 16).length ≤ m := by
          simp only [List.length_drop]
          omega
        rw [ih m _ _ hd hd2]

lemma cbcAux_fuel (dec : List Nat → List Nat) (fuel : Nat) (iv ct : List Nat)
    (h : ct.length ≤ fuel) : cbcAux dec fuel iv ct = cbcDecryptBlocks dec iv ct :=
  cbcAux_fuel_irrel dec fuel ct.length iv ct h (le_refl _)

/-- Unfolding equation for cbcDecryptBlocks. -/
lemma cbcDecryptBlocks_unfold (dec : List Nat → List Nat) (iv ct : List Nat) :
    cbcDecryptBlocks dec iv ct =
      if ct = [] then []
      else zipXor iv (dec (ct.take 16)) ++ cbcDecryptBlocks dec (ct.take 16) (ct.drop 16) := by
  by_cases hct : ct = []
  · subst hct
    rfl
  · have hpos : 0 < ct.length := List.length_pos.mpr hct
    obtain ⟨m, hm⟩ : ∃ m, ct.length = m + 1 := ⟨ct.length - 1, by omega⟩
    rw [if_neg hct, cbcDecryptBlocks, hm, cbcAux, if_neg hct]
    have h2 : (ct.drop 16).length ≤ m := by
      simp only [List.length_drop]
      omega
    rw [cbcAux_fuel dec m _ _ h2]

/-- C3: in scattered-chunk mode, when the stored chunk_data_crc32
differs from the CRC-32 of the decrypted chunk payload, decrypt_file2
reports failure and the output copy is byte-identical to the input
file: no chunk write happens, because the checksum comparison precedes
the write loop. -/
theorem phobos_crc_guard (endblock file : List Nat) (footerSize : Nat)
    (hub : 0x0C + 12 ≤ endblock.length)
    (hcrc : leU32 endblock 0x14 ≠ crc32 (chunkData endblock)) :
    mode1Apply endblock file footerSize = Except.ok (false, file) := by
  unfold mode1Apply
  rw [if_pos hub, if_pos hcrc]

/-- Witness for phobos_crc_guard: an end block whose stored checksum
field is 1 while the (empty) payload has CRC-32 zero. -/
theorem phobos_crc_guard_witness :
    mode1Apply (List.replicate 0x14 0 ++ [1, 0, 0, 0]) [9, 9] 5 =
      Except.ok (false, [9, 9]) :=
  phobos_crc_guard (List.replicate 0x14 0 ++ [1, 0, 0, 0]) [9, 9] 5
    (by decide) (by decide)

/-- Helper for C5: on the final short block the source and the amended
specification agree. -/
lemma mode2_short_eq (dec : List Nat → List Nat) (iv input : List Nat)
    (hlt : ¬ ENC_BLOCK_SIZE ≤ input.length) :
    mode2Loop dec iv input = specSingleStreamAmended dec iv input := by
  rw [mode2Loop, specSingleStreamAmended, if_neg hlt, if_neg hlt]
  have hand : input.length &&& 0xF = input.length % 16 := by
    have h := Nat.and_pow_two_sub_one_eq_mod input.length 4
    norm_num at h
    exact h
  rw [hand]
  by_cases hz : input.length % 16 = 0
  · rw [if_pos hz, if_pos hz, if_pos hz, List.nil_append]
  · rw [if_neg hz, if_neg hz, if_neg hz]

lemma mode2Loop_eq_amended (dec : List Nat → List Nat) :
    ∀ (n : Nat) (iv input : List Nat), input.length ≤ n →
      mode2Loop dec iv input = specSingleStreamAmended dec iv input := by
  intro n
  induction n with
  | zero =>
      intro iv input h
      apply mode2_short_eq
      have he : ENC_BLOCK_SIZE = 0xD0000 := rfl
      omega
  | succ n ih =>
      intro iv input h
      by_cases hge : ENC_BLOCK_SIZE ≤ input.length
      · rw [mode2Loop, specSingleStreamAmended, if_pos hge, if_pos hge]
        congr 1
        apply ih
        simp only [List.length_drop]
        have he : ENC_BLOCK_SIZE = 0xD0000 := rfl
        omega
      · exact mode2_short_eq dec iv input hge

/-- C5 counterexample: a 32-byte input (one short block whose byte
count is a nonzero multiple of 16).  The source copies the whole block
unmodified (Python slices with excess = 0), while the claim as stated
requires it to be CBC-decrypted; with a block primitive returning
sixteen 1 bytes the two differ. -/
theorem phobos_single_stream_counterexample :
    mode2Loop (fun _ => List.replicate 16 1) (List.replicate 16 0) (List.replicate 32 0) ≠
      specSingleStream (fun _ => List.replicate 16 1) (List.replicate 16 0)
        (List.replicate 32 0) := by
  rw [mode2Loop, specSingleStream]
  decide

/-- C5 as amended: single-stream mode is CBC decryption of the input
in ENC_BLOCK_SIZE blocks from offset 0, except that for the final
short block, a byte count that is not a multiple of 16 has only its
16-aligned leading portion decrypted with the unaligned tail copied
unmodified, while a byte count that is a nonzero multiple of 16 leaves
the entire final block copied unmodified (and an empty final read
appends nothing). -/
theorem phobos_single_stream_amended (dec : List Nat → List Nat) (iv input : List Nat) :
    mode2Loop dec iv input = specSingleStreamAmended dec iv input :=
  mode2Loop_eq_amended dec input.length iv input (le_refl _)

lemma findKeyLoop_range (kd ek : List Nat) :
    ∀ (fuel m : Nat), (kd.length + 159) / 160 ≤ m + fuel →
      findKeyLoop kd ek fuel (m * 160) =
        ((List.range' m ((kd.length + 159) / 160 - m)).find?
            (fun j => decide (slice kd (j * KEY_ENTRY_SIZE) RSA_KEY_SIZE = ek))).map
          (fun j => slice kd (j * KEY_ENTRY_SIZE + RSA_KEY_SIZE) AES_KEY_SIZE) := by
  have hke : KEY_ENTRY_SIZE = 160 := rfl
  intro fuel
  induction fuel with
  | zero =>
      intro m h
      have h0 : (kd.length + 159) / 160 - m = 0 := by omega
      rw [h0]
      rfl
  | succ fuel ih =>
      intro m h
      by_cases hm : m * 160 < kd.length
      · have hment : m < (kd.length + 159) / 160 := by omega
        have hsplit : (kd.length + 159) / 160 - m =
            ((kd.length + 159) / 160 - (m + 1)) + 1 := by omega
        rw [hsplit, List.range'_succ, findKeyLoop, if_pos hm]
        by_cases hp : slice kd (m * 160) RSA_KEY_SIZE = ek
        · rw [if_pos hp, List.find?_cons_of_pos]
          · simp only [Option.map_some', hke]
          · simp only [hke, decide_eq_true_eq]
            exact hp
        · rw [if_neg hp, List.find?_cons_of_neg]
          · have harg : m * 160 + KEY_ENTRY_SIZE = (m + 1) * 160 := by
              rw [hke]
              ring
            rw [harg]
            exact ih (m + 1) (by omega)
          · simp only [hke, decide_eq_true_eq]
            exact hp
      · have h0 : (kd.length + 159) / 160 - m = 0 := by omega
        rw [h0, findKeyLoop, if_neg hm]
        rfl

/-- C7: the key lookup of decrypt_file2 scans the keystore at stride
KEY_ENTRY_SIZE and returns the AES_KEY_SIZE-byte symmetric key of the
first entry whose RSA_KEY_SIZE-byte wrapped-key field is byte-equal to
the container's wrapped key bytes (so a later duplicate wrapped key
with a different symmetric key is never used), and returns failure
exactly when no entry matches. -/
theorem phobos_first_match_key (kd ek : List Nat) (hk : kd.length % KEY_ENTRY_SIZE = 0) :
    findKey kd ek = firstEntryKeySpec kd ek ∧
    (∀ k : List Nat, findKey kd ek = some k → k.length = AES_KEY_SIZE) ∧
    (findKey kd ek = none ↔
      ∀ j : Nat, j * KEY_ENTRY_SIZE < kd.length →
        slice kd (j * KEY_ENTRY_SIZE) RSA_KEY_SIZE ≠ ek) := by
  have hke : KEY_ENTRY_SIZE = 160 := rfl
  have heq : findKey kd ek = firstEntryKeySpec kd ek := by
    have h := findKeyLoop_range kd ek (kd.length + 1) 0 (by omega)
    simp only [Nat.zero_mul, Nat.zero_add] at h
    rw [findKey, h, firstEntryKeySpec]
    have hr : List.range ((kd.length + (KEY_ENTRY_SIZE - 1)) / KEY_ENTRY_SIZE) =
        List.range' 0 ((kd.length + 159) / 160) := by
      rw [hke, List.range_eq_range']
    rw [hr, Nat.sub_zero]
  refine ⟨heq, ?_, ?_⟩
  · intro k hsome
    rw [heq, firstEntryKeySpec] at hsome
    rw [Option.map_eq_some'] at hsome
    obtain ⟨j, hfind, hkv⟩ := hsome
    have hjm := List.mem_of_find?_eq_some hfind
    rw [List.mem_range] at hjm
    rw [← hkv, slice_length]
    have hs : AES_KEY_SIZE = 32 := rfl
    rw [hke] at hjm hk ⊢
    rw [hs]
    have hrs : RSA_KEY_SIZE = 128 := rfl
    rw [hrs]
    omega
  · rw [heq, firstEntryKeySpec, Option.map_eq_none', List.find?_eq_none]
    constructor
    · intro hall j hj
      have hjm : j ∈ List.range ((kd.length + (KEY_ENTRY_SIZE - 1)) / KEY_ENTRY_SIZE) := by
        rw [List.mem_range, hke]
        rw [hke] at hj
        omega
      have h := hall j hjm
      simp only [decide_eq_true_eq] at h
      exact h
    · intro hall j hjm
      simp only [decide_eq_true_eq]
      rw [List.mem_range] at hjm
      apply hall
      rw [hke]
      rw [hke] at hjm
      omega

/-- Witness for phobos_first_match_key: a two-entry keystore whose
entries share the wrapped-key field (128 bytes of 7) but carry
different symmetric keys; the first entry's key (32 bytes of 1) is
returned. -/
theorem phobos_first_match_key_witness :
    (List.replicate 128 7 ++ List.replicate 32 1 ++
        (List.replicate 128 7 ++ List.replicate 32 2) : List Nat).length %
      KEY_ENTRY_SIZE = 0 ∧
    findKey (List.replicate 128 7 ++ List.replicate 32 1 ++
        (List.replicate 128 7 ++ List.replicate 32 2)) (List.replicate 128 7) =
      firstEntryKeySpec (List.replicate 128 7 ++ List.replicate 32 1 ++
        (List.replicate 128 7 ++ List.replicate 32 2)) (List.replicate 128 7) :=
  ⟨by norm_num [KEY_ENTRY_SIZE, RSA_KEY_SIZE, AES_KEY_SIZE],
    (phobos_first_match_key _ _ (by norm_num [KEY_ENTRY_SIZE, RSA_KEY_SIZE, AES_KEY_SIZE])).1⟩

/-- Invariant of the scattered-chunk write loop: it succeeds, every
chunk already written from index i on lands at its table offset, every
range disjoint from all remaining chunk ranges is preserved, and the
file never shrinks. -/
lemma mode1WriteLoop_frame (endblock cd : List Nat) (cs n : Nat)
    (hb : 0x20 + n * 8 ≤ endblock.length)
    (hcd : n * cs ≤ cd.length) :
    ∀ (c i : Nat) (f : List Nat), n - i ≤ c → i ≤ n →
      ∃ out, mode1WriteLoop endblock cs cd n i f = Except.ok out ∧
        ((∀ j1 j2, j1 < n → j2 < n → j1 ≠ j2 →
          leU64 endblock (0x20 + j1 * 8) + cs ≤ leU64 endblock (0x20 + j2 * 8) ∨
          leU64 endblock (0x20 + j2 * 8) + cs ≤ leU64 endblock (0x20 + j1 * 8)) →
          ∀ j, i ≤ j → j < n →
            slice out (leU64 endblock (0x20 + j * 8)) cs = slice cd (j * cs) cs) ∧
        (∀ q m, (∀ j, i ≤ j → j < n →
            q + m ≤ leU64 endblock (0x20 + j * 8) ∨
            leU64 endblock (0x20 + j * 8) + cs ≤ q) →
          q + m ≤ f.length → slice out q m = slice f q m) ∧
        f.length ≤ out.length := by
  intro c
  induction c with
  | zero =>
      intro i f hc hi
      have hni : ¬ i < n := by omega
      rw [mode1WriteLoop, if_neg hni]
      refine ⟨f, rfl, ?_, ?_, le_refl _⟩
      · intro _ j hj1 hj2
        omega
      · intro q m _ _
        rfl
  | succ c ih =>
      intro i f hc hi
      by_cases hin : i < n
      · rw [mode1WriteLoop, if_pos hin]
        have hup : unpackU64 endblock (0x20 + i * 8) =
            Except.ok (leU64 endblock (0x20 + i * 8)) := by
          unfold unpackU64
          rw [if_pos (by omega)]
        rw [hup]
        have hwl : (slice cd (i * cs) cs).length = cs := by
          rw [slice_length]
          have : i * cs + cs ≤ n * cs := by
            have h1 : i + 1 ≤ n := hin
            calc i * cs + cs = (i + 1) * cs := by ring
            _ ≤ n * cs := Nat.mul_le_mul_right cs h1
          omega
        obtain ⟨out, hout, hwrote, hpres, hgrow⟩ :=
          ih (i + 1) (writeAt f (leU64 endblock (0x20 + i * 8)) (slice cd (i * cs) cs))
            (by omega) (by omega)
        have hflen : (writeAt f (leU64 endblock (0x20 + i * 8)) (slice cd (i * cs) cs)).length =
            max (leU64 endblock (0x20 + i * 8) + cs) f.length := by
          rw [writeAt_length, hwl]
        refine ⟨out, hout, ?_, ?_, ?_⟩
        · intro hdisj j hj1 hj2
          by_cases hji : j = i
          · subst hji
            have hq : slice out (leU64 endblock (0x20 + j * 8)) cs =
                slice (writeAt f (leU64 endblock (0x20 + j * 8)) (slice cd (j * cs) cs))
                  (leU64 endblock (0x20 + j * 8)) cs := by
              apply hpres
              · intro j2 hj2i hj2n
                exact hdisj j j2 hj2 hj2n (by omega)
              · rw [hflen]
                omega
            rw [hq]
            have hself := slice_writeAt_self f (leU64 endblock (0x20 + j * 8))
              (slice cd (j * cs) cs)
            rw [hwl] at hself
            exact hself
          · exact hwrote hdisj j (by omega) hj2
        · intro q m hqdisj hqm
          have h1 : slice out q m =
              slice (writeAt f (leU64 endblock (0x20 + i * 8)) (slice cd (i * cs) cs)) q m := by
            apply hpres
            · intro j hj1 hj2
              exact hqdisj j (by omega) hj2
            · rw [hflen]
              omega
          rw [h1]
          apply slice_writeAt_disjoint
          · exact hqm
          · rw [hwl]
            rcases hqdisj i (le_refl i) hin with h | h
            · left
              exact h
            · right
              exact h
        · calc f.length ≤
              (writeAt f (leU64 endblock (0x20 + i * 8)) (slice cd (i * cs) cs)).length := by
                rw [hflen]; omega
            _ ≤ out.length := hgrow
      · rw [mode1WriteLoop, if_neg hin]
        refine ⟨f, rfl, ?_, ?_, le_refl _⟩
        · intro _ j hj1 hj2
          omega
        · intro q m _ _
          rfl

/-- C4: in scattered-chunk mode, after the write loop every chunk index
j below num_chunks has the output bytes at its table offset equal to
the j-th chunk_size slice of the decrypted payload — placement is
determined solely by the offset table, whatever order the offsets
appear in, provided the destination ranges do not overlap. -/
theorem phobos_scattered_placement (endblock file : List Nat)
    (hb : 0x20 + (leU32 endblock 0x0C) * 8 +
      (leU32 endblock 0x0C) * (leU32 endblock 0x10) ≤ endblock.length)
    (hdisj : ∀ j1 j2, j1 < leU32 endblock 0x0C → j2 < leU32 endblock 0x0C → j1 ≠ j2 →
      leU64 endblock (0x20 + j1 * 8) + leU32 endblock 0x10 ≤ leU64 endblock (0x20 + j2 * 8) ∨
      leU64 endblock (0x20 + j2 * 8) + leU32 endblock 0x10 ≤ leU64 endblock (0x20 + j1 * 8)) :
    ∃ out, mode1WriteLoop endblock (leU32 endblock 0x10) (chunkData endblock)
        (leU32 endblock 0x0C) 0 file = Except.ok out ∧
      ∀ j, j < leU32 endblock 0x0C →
        slice out (leU64 endblock (0x20 + j * 8)) (leU32 endblock 0x10) =
          slice (chunkData endblock) (j * leU32 endblock 0x10) (leU32 endblock 0x10) := by
  have hcd : (leU32 endblock 0x0C) * (leU32 endblock 0x10) ≤ (chunkData endblock).length := by
    rw [chunkData, slice_length]
    omega
  obtain ⟨out, hout, hwrote, _, _⟩ :=
    mode1WriteLoop_frame endblock (chunkData endblock) (leU32 endblock 0x10)
      (leU32 endblock 0x0C) (by omega) hcd (leU32 endblock 0x0C) 0 file (by omega) (by omega)
  exact ⟨out, hout, fun j hj => hwrote hdisj j (by omega) hj⟩

/-- Witness for phobos_scattered_placement: a two-chunk table whose
offsets are in reverse order (chunk 0 goes to offset 10, chunk 1 to
offset 0). -/
theorem phobos_scattered_placement_witness :
    ∃ out, mode1WriteLoop wEndblock (leU32 wEndblock 0x10) (chunkData wEndblock)
        (leU32 wEndblock 0x0C) 0 (List.replicate 12 9) = Except.ok out ∧
      ∀ j, j < leU32 wEndblock 0x0C →
        slice out (leU64 wEndblock (0x20 + j * 8)) (leU32 wEndblock 0x10) =
          slice (chunkData wEndblock) (j * leU32 wEndblock 0x10) (leU32 wEndblock 0x10) :=
  phobos_scattered_placement wEndblock (List.replicate 12 9) (by decide)
    (by
      intro j1 j2 h1 h2 hne
      have e : leU32 wEndblock 0x0C = 2 := by decide
      rw [e] at h1 h2
      have hj1 : j1 = 0 ∨ j1 = 1 := by omega
      have hj2 : j2 = 0 ∨ j2 = 1 := by omega
      rcases hj1 with rfl | rfl <;> rcases hj2 with rfl | rfl
      · exact absurd rfl hne
      · right
        decide
      · left
        decide
      · exact absurd rfl hne)

/-! ### CRC-32 error detection -/

lemma shiftRight_xor_distrib (a b n : Nat) : (a ^^^ b) >>> n = a >>> n ^^^ b >>> n := by
  apply Nat.eq_of_testBit_eq
  intro i
  simp [Nat.testBit_shiftRight, Nat.testBit_xor]

lemma crc32Step_lt (x : Nat) (h : x < 2 ^ 32) : crc32Step x < 2 ^ 32 := by
  unfold crc32Step
  have hs : x >>> 1 < 2 ^ 32 := by
    rw [Nat.shiftRight_eq_div_pow]
    omega
  split
  · exact Nat.xor_lt_two_pow hs (by norm_num)
  · exact hs

lemma crc32Table_lt (i : Nat) (h : i < 2 ^ 32) : crc32Table i < 2 ^ 32 := by
  have hgen : ∀ (n x : Nat), x < 2 ^ 32 → crc32Step^[n] x < 2 ^ 32 := by
    intro n
    induction n with
    | zero => intro x hx; exact hx
    | succ n ih =>
        intro x hx
        rw [Function.iterate_succ_apply]
        exact ih _ (crc32Step_lt x hx)
  exact hgen 8 i h

lemma and_255_lt (x : Nat) : x &&& 0xFF < 256 := by
  have h := Nat.and_lt_two_pow x (show (0xFF : Nat) < 2 ^ 8 by norm_num)
  norm_num at h
  exact h

lemma crc32Update_lt (crc b : Nat) (h : crc < 2 ^ 32) : crc32Update crc b < 2 ^ 32 := by
  unfold crc32Update
  apply Nat.xor_lt_two_pow
  · rw [Nat.shiftRight_eq_div_pow]
    omega
  · exact crc32Table_lt _ (lt_trans (and_255_lt _) (by norm_num))

lemma crc32_foldl_lt (l : List Nat) : ∀ s : Nat, s < 2 ^ 32 →
    l.foldl crc32Update s < 2 ^ 32 := by
  induction l with
  | nil => intro s h; exact h
  | cons a l ih =>
      intro s h
      rw [List.foldl_cons]
      exact ih _ (crc32Update_lt s a h)

set_option maxRecDepth 8192 in
/-- The high bytes of the 256 CRC table entries are pairwise distinct. -/
lemma crc32Table_high_nodup :
    ((List.range 256).map (fun i => crc32Table i >>> 24)).Nodup := by decide

lemma crc32Table_high_inj (i j : Nat) (hi : i < 256) (hj : j < 256)
    (h : crc32Table i >>> 24 = crc32Table j >>> 24) : i = j := by
  have hinj := List.nodup_iff_injective_getElem.mp crc32Table_high_nodup
  have hlen : ((List.range 256).map (fun i => crc32Table i >>> 24)).length = 256 := by
    simp
  have heq := @hinj ⟨i, by omega⟩ ⟨j, by omega⟩ (by
    simp only [List.getElem_map, List.getElem_range]
    exact h)
  exact congrArg Fin.val heq

lemma crc32Table_inj (i j : Nat) (hi : i < 256) (hj : j < 256)
    (h : crc32Table i = crc32Table j) : i = j :=
  crc32Table_high_inj i j hi hj (by rw [h])

lemma and_255_eq_of_lt (b : Nat) (h : b < 256) : b &&& 0xFF = b := by
  have h2 : (0xFF : Nat) = 2 ^ 8 - 1 := by norm_num
  rw [h2, Nat.and_pow_two_sub_one_eq_mod, Nat.mod_eq_of_lt (by omega)]

lemma xor_and_255 (a b : Nat) : (a ^^^ b) &&& 0xFF = (a &&& 0xFF) ^^^ (b &&& 0xFF) :=
  Nat.and_xor_distrib_right

lemma shiftRight24_of_lt (a : Nat) (h : a < 2 ^ 24) : a >>> 24 = 0 := by
  rw [Nat.shiftRight_eq_div_pow]
  exact Nat.div_eq_of_lt h

lemma crc32Update_high (s b : Nat) (hs : s < 2 ^ 32) :
    crc32Update s b >>> 24 = crc32Table ((s ^^^ b) &&& 0xFF) >>> 24 := by
  unfold crc32Update
  rw [shiftRight_xor_distrib]
  have h8 : s >>> 8 < 2 ^ 24 := by
    rw [Nat.shiftRight_eq_div_pow]
    omega
  rw [shiftRight24_of_lt _ h8]
  simp

lemma nat_reconstruct (s : Nat) : s = 256 * (s >>> 8) + (s &&& 0xFF) := by
  have h2 : (0xFF : Nat) = 2 ^ 8 - 1 := by norm_num
  rw [Nat.shiftRight_eq_div_pow, h2, Nat.and_pow_two_sub_one_eq_mod]
  have h := Nat.div_add_mod s (2 ^ 8)
  omega

lemma crc32Update_inj (b s1 s2 : Nat) (h1 : s1 < 2 ^ 32) (h2 : s2 < 2 ^ 32)
    (he : crc32Update s1 b = crc32Update s2 b) : s1 = s2 := by
  have hhi : crc32Table ((s1 ^^^ b) &&& 0xFF) >>> 24 =
      crc32Table ((s2 ^^^ b) &&& 0xFF) >>> 24 := by
    rw [← crc32Update_high s1 b h1, ← crc32Update_high s2 b h2, he]
  have hidx : (s1 ^^^ b) &&& 0xFF = (s2 ^^^ b) &&& 0xFF :=
    crc32Table_high_inj _ _ (and_255_lt _) (and_255_lt _) hhi
  have htab : crc32Table ((s1 ^^^ b) &&& 0xFF) = crc32Table ((s2 ^^^ b) &&& 0xFF) := by
    rw [hidx]
  have hsh : s1 >>> 8 = s2 >>> 8 := by
    have h := he
    unfold crc32Update at h
    rw [htab] at h
    exact Nat.xor_left_inj.mp h
  have hlow : s1 &&& 0xFF = s2 &&& 0xFF := by
    rw [xor_and_255, xor_and_255] at hidx
    exact Nat.xor_left_inj.mp hidx
  calc s1 = 256 * (s1 >>> 8) + (s1 &&& 0xFF) := nat_reconstruct s1
    _ = 256 * (s2 >>> 8) + (s2 &&& 0xFF) := by rw [hsh, hlow]
    _ = s2 := (nat_reconstruct s2).symm

lemma crc32_foldl_inj (l : List Nat) : ∀ s1 s2 : Nat, s1 < 2 ^ 32 → s2 < 2 ^ 32 →
    l.foldl crc32Update s1 = l.foldl crc32Update s2 → s1 = s2 := by
  induction l with
  | nil => intro s1 s2 _ _ h; exact h
  | cons a l ih =>
      intro s1 s2 h1 h2 h
      rw [List.foldl_cons, List.foldl_cons] at h
      exact crc32Update_inj a s1 s2 h1 h2
        (ih _ _ (crc32Update_lt s1 a h1) (crc32Update_lt s2 a h2) h)

lemma crc32Update_ne (s b b2 : Nat) (hb : b < 256) (hb2 : b2 < 256) (hne : b ≠ b2) :
    crc32Update s b ≠ crc32Update s b2 := by
  intro he
  unfold crc32Update at he
  have htab : crc32Table ((s ^^^ b) &&& 0xFF) = crc32Table ((s ^^^ b2) &&& 0xFF) :=
    Nat.xor_right_inj.mp he
  have hidx : (s ^^^ b) &&& 0xFF = (s ^^^ b2) &&& 0xFF :=
    crc32Table_inj _ _ (and_255_lt _) (and_255_lt _) htab
  rw [xor_and_255, xor_and_255, and_255_eq_of_lt b hb, and_255_eq_of_lt b2 hb2] at hidx
  exact hne (Nat.xor_right_inj.mp hidx)

/-- Flipping any single byte of a byte string changes its CRC-32. -/
lemma crc32_set_ne (l : List Nat) (k v b2 : Nat) (hk : l[k]? = some v)
    (hv : v < 256) (hb2 : b2 < 256) (hne : b2 ≠ v) :
    crc32 (l.set k b2) ≠ crc32 l := by
  have hklen : k < l.length := by
    by_contra hcon
    rw [List.getElem?_eq_none (by omega)] at hk
    exact Option.noConfusion hk
  have hdecomp : l = l.take k ++ v :: l.drop (k + 1) := by
    have h := List.getElem?_eq_some.mp hk
    obtain ⟨hlt, hval⟩ := h
    conv_lhs => rw [← List.take_append_drop k l]
    congr 1
    rw [List.drop_eq_getElem_cons hlt, hval]
  have hset : l.set k b2 = l.take k ++ b2 :: l.drop (k + 1) :=
    List.set_eq_take_cons_drop b2 hklen
  intro he
  rw [crc32, crc32] at he
  have he2 : (l.set k b2).foldl crc32Update 0xFFFFFFFF =
      l.foldl crc32Update 0xFFFFFFFF := Nat.xor_left_inj.mp he
  rw [hset] at he2
  conv_rhs at he2 => rw [hdecomp]
  rw [List.foldl_append, List.foldl_append, List.foldl_cons, List.foldl_cons] at he2
  have hs : (l.take k).foldl crc32Update 0xFFFFFFFF < 2 ^ 32 :=
    crc32_foldl_lt _ _ (by norm_num)
  have hstep := crc32_foldl_inj (l.drop (k + 1)) _ _
    (crc32Update_lt _ _ hs) (crc32Update_lt _ _ hs) he2
  exact crc32Update_ne _ b2 v hb2 hv hne hstep

lemma slice_set_outside (l : List Nat) (j v p n : Nat) (h : j < p ∨ p + n ≤ j) :
    slice (l.set j v) p n = slice l p n := by
  apply List.ext_getElem?
  intro i
  rw [slice_getElem?, slice_getElem?]
  by_cases hi : i < n
  · rw [if_pos hi, if_pos hi, List.getElem?_set_ne (by omega)]
  · rw [if_neg hi, if_neg hi]

lemma slice_set_inside (l : List Nat) (j v p n : Nat) (hjp : p ≤ j) (hjn : j < p + n)
    (hjl : j < l.length) :
    slice (l.set j v) p n = (slice l p n).set (j - p) v := by
  apply List.ext_getElem?
  intro i
  rw [slice_getElem?]
  by_cases hi : i < n
  · rw [if_pos hi]
    by_cases hij : j = p + i
    · subst hij
      rw [List.getElem?_set_self (by omega)]
      have hpi : p + i - p = i := by omega
      rw [hpi, List.getElem?_set_self]
      rw [slice_length]
      omega
    · rw [List.getElem?_set_ne (by omega), List.getElem?_set_ne (by omega), slice_getElem?,
        if_pos hi]
  · rw [if_neg hi, List.getElem?_eq_none]
    rw [List.length_set, slice_length]
    omega

/-- C8: the keystore loader XOR-decodes the (count, crc) header with
KEY_DATA_XOR and accepts the keystore exactly when the decoded crc
equals the CRC-32 of the count * KEY_ENTRY_SIZE byte payload after the
8-byte header; on mismatch, and in particular after flipping any
single payload byte of an accepted keystore, the loader rejects (the
sys.exit(1) path, before any decryption). -/
theorem phobos_keystore_gate (raw : List Nat) :
    (loadKeystore raw = some (keystorePayload raw) ↔
      leU32 raw 4 ^^^ KEY_DATA_XOR = crc32 (keystorePayload raw)) ∧
    (loadKeystore raw = none ↔
      leU32 raw 4 ^^^ KEY_DATA_XOR ≠ crc32 (keystorePayload raw)) ∧
    (∀ k v b2 : Nat, (keystorePayload raw)[k]? = some v → v < 256 → b2 < 256 → b2 ≠ v →
      leU32 raw 4 ^^^ KEY_DATA_XOR = crc32 (keystorePayload raw) →
      loadKeystore (raw.set (8 + k) b2) = none) := by
  refine ⟨?_, ?_, ?_⟩
  · constructor
    · intro h
      by_contra hcon
      rw [loadKeystore, if_neg hcon] at h
      exact Option.noConfusion h
    · intro h
      rw [loadKeystore, if_pos h]
  · constructor
    · intro h hcon
      rw [loadKeystore, if_pos hcon] at h
      exact Option.noConfusion h
    · intro h
      rw [loadKeystore, if_neg h]
  · intro k v b2 hk hv hb2 hne hacc
    have hkL : k < (leU32 raw 0 ^^^ KEY_DATA_XOR) * KEY_ENTRY_SIZE ∧
        raw[8 + k]? = some v := by
      rw [keystorePayload, slice_getElem?] at hk
      by_cases hlt : k < (leU32 raw 0 ^^^ KEY_DATA_XOR) * KEY_ENTRY_SIZE
      · rw [if_pos hlt] at hk
        exact ⟨hlt, hk⟩
      · rw [if_neg hlt] at hk
        exact Option.noConfusion hk
    have hk2 : 8 + k < raw.length := by
      have h := List.getElem?_eq_some.mp hkL.2
      exact h.1
    have hL0 : leU32 (raw.set (8 + k) b2) 0 = leU32 raw 0 := by
      rw [leU32, leU32, slice_set_outside raw (8 + k) b2 0 4 (by omega)]
    have hL4 : leU32 (raw.set (8 + k) b2) 4 = leU32 raw 4 := by
      rw [leU32, leU32, slice_set_outside raw (8 + k) b2 4 4 (by omega)]
    have hpay : keystorePayload (raw.set (8 + k) b2) = (keystorePayload raw).set k b2 := by
      rw [keystorePayload, keystorePayload, hL0]
      have h := slice_set_inside raw (8 + k) b2 8
        ((leU32 raw 0 ^^^ KEY_DATA_XOR) * KEY_ENTRY_SIZE) (by omega) (by omega) hk2
      have h8 : 8 + k - 8 = k := by omega
      rw [h8] at h
      exact h
    rw [loadKeystore, if_neg]
    rw [hL4, hpay, hacc]
    exact fun hcon =>
      crc32_set_ne (keystorePayload raw) k v b2 hk hv hb2 hne hcon.symm

set_option maxRecDepth 8192 in
/-- Witness for phobos_keystore_gate: the concrete keystore is
accepted, and flipping its first payload byte to 5 makes the loader
reject it. -/
theorem phobos_keystore_gate_witness :
    loadKeystore wKeystore = some (keystorePayload wKeystore) ∧
    loadKeystore (wKeystore.set 8 5) = none :=
  ⟨(phobos_keystore_gate wKeystore).1.mpr (by decide),
    (phobos_keystore_gate wKeystore).2.2 0 0 5 (by decide) (by decide) (by decide)
      (by decide) (by decide)⟩

/-! ### Exception behaviour of decrypt_file2 -/

lemma findKey_length (kd ek k : List Nat) (hkd : kd.length % KEY_ENTRY_SIZE = 0)
    (h : findKey kd ek = some k) : k.length = AES_KEY_SIZE := by
  have hke : KEY_ENTRY_SIZE = 160 := rfl
  have hr := findKeyLoop_range kd ek (kd.length + 1) 0 (by omega)
  simp only [Nat.zero_mul, Nat.zero_add] at hr
  rw [findKey, hr, Option.map_eq_some'] at h
  obtain ⟨j, hfind, hkv⟩ := h
  have hjm := List.mem_of_find?_eq_some hfind
  rw [List.mem_range'_1] at hjm
  rw [← hkv, slice_length]
  have hs : AES_KEY_SIZE = 32 := rfl
  have hrs : RSA_KEY_SIZE = 128 := rfl
  rw [hke] at hkd
  rw [hs, hrs, hke]
  omega

lemma cbcDecryptBlocks_length (dec : List Nat → List Nat)
    (hdec : ∀ b, (dec b).length = b.length) :
    ∀ (n : Nat) (iv ct : List Nat), ct.length ≤ n → iv.length = 16 → ct.length % 16 = 0 →
      (cbcDecryptBlocks dec iv ct).length = ct.length := by
  intro n
  induction n with
  | zero =>
      intro iv ct h1 _ _
      have hct : ct = [] := List.length_eq_zero.mp (by omega)
      subst hct
      rfl
  | succ n ih =>
      intro iv ct h1 hiv hal
      by_cases hct : ct = []
      · subst hct
        rfl
      · rw [cbcDecryptBlocks_unfold, if_neg hct]
        have hpos : 0 < ct.length := List.length_pos.mpr hct
        have h16 : 16 ≤ ct.length := by omega
        rw [List.length_append]
        have hz : (zipXor iv (dec (ct.take 16))).length = 16 := by
          rw [zipXor, List.length_zipWith, hdec, List.length_take]
          omega
        have hrec := ih (ct.take 16) (ct.drop 16)
          (by simp only [List.length_drop]; omega)
          (by rw [List.length_take]; omega)
          (by simp only [List.length_drop]; omega)
        rw [hz, hrec]
        simp only [List.length_drop]
        omega

lemma mode2Loop_length (dec : List Nat → List Nat) (hdec : ∀ b, (dec b).length = b.length) :
    ∀ (n : Nat) (iv input : List Nat), input.length ≤ n → iv.length = 16 →
      (mode2Loop dec iv input).length = input.length := by
  have hebs : ENC_BLOCK_SIZE = 0xD0000 := rfl
  intro n
  induction n with
  | zero =>
      intro iv input h1 hiv
      have h0 : input.length = 0 := by omega
      rw [mode2Loop, if_neg (by omega)]
      have hx : input.length &&& 0xF = 0 := by
        have h := Nat.and_pow_two_sub_one_eq_mod input.length 4
        norm_num at h
        omega
      rw [hx]
      simp
  | succ n ih =>
      intro iv input h1 hiv
      by_cases hge : ENC_BLOCK_SIZE ≤ input.length
      · rw [mode2Loop, if_pos hge, List.length_append]
        have hcbc : (cbcDecryptBlocks dec iv (input.take ENC_BLOCK_SIZE)).length =
            ENC_BLOCK_SIZE := by
          have h := cbcDecryptBlocks_length dec hdec ENC_BLOCK_SIZE iv
            (input.take ENC_BLOCK_SIZE) (by rw [List.length_take]; omega) hiv
            (by rw [List.length_take]; omega)
          rw [h, List.length_take]
          omega
        have hrec := ih (lastN (input.take ENC_BLOCK_SIZE) 16) (input.drop ENC_BLOCK_SIZE)
          (by simp only [List.length_drop]; omega)
          (by rw [lastN, List.length_drop, List.length_take]; omega)
        rw [hcbc, hrec]
        simp only [List.length_drop]
        omega
      · rw [mode2Loop, if_neg hge]
        have hand : input.length &&& 0xF = input.length % 16 := by
          have h := Nat.and_pow_two_sub_one_eq_mod input.length 4
          norm_num at h
          exact h
        rw [hand]
        by_cases hz : input.length % 16 = 0
        · rw [if_pos hz, if_pos hz]
          simp
        · rw [if_neg hz, if_neg hz, List.length_append]
          have hcbc := cbcDecryptBlocks_length dec hdec
            (input.take (input.length - input.length % 16)).length iv
            (input.take (input.length - input.length % 16)) (le_refl _) hiv
            (by rw [List.length_take]; omega)
          rw [hcbc]
          rw [List.length_take, List.length_drop]
          omega

lemma findTerminatorLoop_ok (data : List Nat) (hlen : data.length % 2 = 0) :
    ∀ (c i : Nat), data.length - i ≤ c → i % 2 = 0 →
      ∃ r, findTerminatorLoop data i = Except.ok r := by
  intro c
  induction c with
  | zero =>
      intro i hc hi
      rw [findTerminatorLoop, if_neg (by omega)]
      exact ⟨none, rfl⟩
  | succ c ih =>
      intro i hc hi
      by_cases hil : i < data.length
      · rw [findTerminatorLoop, if_pos hil]
        have hi1 : i + 1 < data.length := by omega
        by_cases h0 : data.getD i 0 = 0
        · rw [if_pos h0, if_pos hi1]
          by_cases h1 : data.getD (i + 1) 0 = 0
          · rw [if_pos h1]
            exact ⟨some i, rfl⟩
          · rw [if_neg h1]
            exact ih (i + 2) (by omega) (by omega)
        · rw [if_neg h0]
          exact ih (i + 2) (by omega) (by omega)
      · rw [findTerminatorLoop, if_neg hil]
        exact ⟨none, rfl⟩

lemma mode1WriteLoop_ok (endblock cd : List Nat) (cs n : Nat)
    (hb : 0x20 + n * 8 ≤ endblock.length) :
    ∀ (c i : Nat) (f : List Nat), n - i ≤ c →
      ∃ out, mode1WriteLoop endblock cs cd n i f = Except.ok out ∧
        f.length ≤ out.length := by
  intro c
  induction c with
  | zero =>
      intro i f hc
      rw [mode1WriteLoop, if_neg (by omega)]
      exact ⟨f, rfl, le_refl _⟩
  | succ c ih =>
      intro i f hc
      by_cases hin : i < n
      · rw [mode1WriteLoop, if_pos hin]
        have hup : unpackU64 endblock (0x20 + i * 8) =
            Except.ok (leU64 endblock (0x20 + i * 8)) := by
          rw [unpackU64, if_pos (by omega)]
        rw [hup]
        obtain ⟨out, hout, hgrow⟩ := ih (i + 1)
          (writeAt f (leU64 endblock (0x20 + i * 8)) (slice cd (i * cs) cs)) (by omega)
        refine ⟨out, hout, ?_⟩
        calc f.length ≤
            (writeAt f (leU64 endblock (0x20 + i * 8)) (slice cd (i * cs) cs)).length := by
              rw [writeAt_length]
              omega
          _ ≤ out.length := hgrow
      · rw [mode1WriteLoop, if_neg hin]
        exact ⟨f, rfl, le_refl _⟩

lemma mode1Apply_ok (endblock file : List Nat) (footerSize : Nat)
    (h24 : 0x18 ≤ endblock.length)
    (hbound : leU32 endblock 0x14 = crc32 (chunkData endblock) →
      0x20 + (leU32 endblock 0x0C) * 8 ≤ endblock.length)
    (hfoot : footerSize ≤ file.length) :
    ∃ r, mode1Apply endblock file footerSize = Except.ok r := by
  rw [mode1Apply, if_pos (by omega)]
  by_cases hcrc : leU32 endblock 0x14 ≠ crc32 (chunkData endblock)
  · rw [if_pos hcrc]
    exact ⟨(false, file), rfl⟩
  · rw [if_neg hcrc]
    push_neg at hcrc
    obtain ⟨out, hout, hgrow⟩ := mode1WriteLoop_ok endblock (chunkData endblock)
      (leU32 endblock 0x10) (leU32 endblock 0x0C) (hbound hcrc)
      (leU32 endblock 0x0C) 0 file (by omega)
    rw [hout]
    refine ⟨(true, dropLastN out footerSize), ?_⟩
    show (if footerSize ≤ out.length then
        Except.ok (true, dropLastN out footerSize) else Except.error PyExc.osError) = _
    rw [if_pos (by omega)]

set_option maxRecDepth 100000 in
set_option maxHeartbeats 1000000 in
/-- C9 counterexample: decrypt_file2 does let a structured exception
propagate.  On cFile, with a keystore whose first entry matches, the
engine reaches struct.unpack_from for the original-filename offset on
a 16-byte end block and raises struct.error instead of returning a
boolean. -/
theorem phobos_engine_exception_counterexample :
    decrypt_file2 (fun _ b => b) (fun _ => some []) cFile
      (List.replicate 128 5 ++ List.replicate 32 7) =
      Except.error PyExc.structError := by
  rfl

set_option maxRecDepth 8192 in
set_option maxHeartbeats 1000000 in
set_option linter.constructorNameAsVariable false in
/-- C9 as amended: decrypt_file2 reports failures as its boolean result
rather than an exception whenever the metadata is well formed in the
ways its parsing relies on: the keystore length is a whole number of
entries, the UTF-16 filename decodes, the declared footer leaves an end
block of more than one cipher block, the original-filename offset is
even, a chunk table announced by a matching checksum fits inside the
end block, and in single-stream mode footer plus padding fit in the
file.  Outside these conditions exceptions can propagate, as the
counterexample shows. -/
theorem phobos_engine_boolean_failures
    (dec : List Nat → List Nat → List Nat) (udec : List Nat → Option (List Nat))
    (file kd : List Nat)
    (hdec : ∀ key b, (dec key b).length = b.length)
    (hkd : kd.length % KEY_ENTRY_SIZE = 0)
    (hudec : ∀ s, (udec s).isSome)
    (hfooter : footerSizeOf file ≠ METADATA_SIZE + 16)
    (hofp : leU32 (endblockOf dec kd file) ORIG_FILENAME_POS_POS % 2 = 0)
    (hmode1 : leU32 (endblockOf dec kd file) ENC_MODE_POS = 1 →
      leU32 (endblockOf dec kd file) 0x14 = crc32 (chunkData (endblockOf dec kd file)) →
      0x20 + (leU32 (endblockOf dec kd file) 0x0C) * 8 ≤ (endblockOf dec kd file).length)
    (hmode2 : leU32 (endblockOf dec kd file) ENC_MODE_POS ≠ 1 →
      footerSizeOf file + paddingSizeOf file ≤ file.length) :
    ∃ v, decrypt_file2 dec udec file kd = Except.ok v := by
  have hmd : METADATA_SIZE = 178 := rfl
  rw [decrypt_file2]
  split
  · exact ⟨_, rfl⟩
  rename_i h1
  split
  · exact ⟨_, rfl⟩
  rename_i aesKey hfk
  split
  · exact ⟨_, rfl⟩
  rename_i h2
  split
  · exact ⟨_, rfl⟩
  rename_i h3
  split
  · exact ⟨_, rfl⟩
  rename_i h4
  have hkey32 : aesKey.length = 32 := by
    have h := findKey_length kd (encKeyDataOf file) aesKey hkd hfk
    rw [h]
    rfl
  split
  · rename_i h5
    exact absurd (Or.inr (Or.inr hkey32)) h5
  rename_i h5
  have hf1 : 178 < footerSizeOf file := by
    rw [hmd] at h2
    omega
  have hf4 : footerSizeOf file ≤ file.length := by omega
  have hf2 : (footerSizeOf file - 178) % 16 = 0 := by
    push_neg at h3
    have h := Nat.and_pow_two_sub_one_eq_mod (footerSizeOf file - METADATA_SIZE) 4
    norm_num at h
    rw [hmd] at h3 h
    omega
  have hf3 : footerSizeOf file ≠ 194 := by
    rw [hmd] at hfooter
    norm_num at hfooter
    exact hfooter
  have hml : (metadataOf file).length = 178 := by
    rw [metadataOf, slice_length, hmd]
    rw [hmd] at h2
    omega
  have hiv : (aesIvOf file).length = 16 := by
    rw [aesIvOf, slice_length, hml]
    rfl
  have hele : (endblockOf dec kd file).length = footerSizeOf file - 178 := by
    rw [endblockOf]
    have hctl : (slice file (file.length - footerSizeOf file)
        (footerSizeOf file - METADATA_SIZE)).length =
        footerSizeOf file - 178 := by
      rw [slice_length, hmd]
      omega
    have hal : (slice file (file.length - footerSizeOf file)
        (footerSizeOf file - METADATA_SIZE)).length % 16 = 0 := by
      rw [hctl]
      exact hf2
    have h := cbcDecryptBlocks_length (dec ((findKey kd (encKeyDataOf file)).getD []))
      (fun b => hdec _ b) (slice file (file.length - footerSizeOf file)
        (footerSizeOf file - METADATA_SIZE)).length (aesIvOf file)
      (slice file (file.length - footerSizeOf file) (footerSizeOf file - METADATA_SIZE))
      (le_refl _) hiv hal
    rw [h, hctl]
  have hel32 : 0x20 ≤ (endblockOf dec kd file).length := by
    rw [hele]
    omega
  rw [if_pos (show ENC_MODE_POS + 8 ≤ (endblockOf dec kd file).length by
    have he : ENC_MODE_POS = 4 := rfl
    omega)]
  by_cases hmag : (if leU32 (endblockOf dec kd file) ENC_MODE_POS = 1 then
      leU32 (endblockOf dec kd file) (ENC_MODE_POS + 4) ≠ ENC_MODE1_MAGIC
    else if leU32 (endblockOf dec kd file) ENC_MODE_POS = 2 then
      leU32 (endblockOf dec kd file) (ENC_MODE_POS + 4) ≠ ENC_MODE2_MAGIC
    else True)
  · rw [if_pos hmag]
    exact ⟨_, rfl⟩
  rw [if_neg hmag]
  have hun : unpackU32 (endblockOf dec kd file) ORIG_FILENAME_POS_POS =
      Except.ok (leU32 (endblockOf dec kd file) ORIG_FILENAME_POS_POS) := by
    rw [unpackU32, if_pos (by
      have ho : ORIG_FILENAME_POS_POS = 0x18 := rfl
      omega)]
  split
  · rename_i e hcase
    rw [hun] at hcase
    exact Except.noConfusion hcase
  rename_i ofp hcase
  have hofpv : ofp = leU32 (endblockOf dec kd file) ORIG_FILENAME_POS_POS := by
    rw [hun] at hcase
    exact (Except.ok.inj hcase).symm
  obtain ⟨r, hterm⟩ := findTerminatorLoop_ok (endblockOf dec kd file)
    (by rw [hele]; omega) (endblockOf dec kd file).length ofp (by omega)
    (by rw [hofpv]; exact hofp)
  split
  · rename_i e hcase2
    rw [hterm] at hcase2
    exact Except.noConfusion hcase2
  · exact ⟨_, rfl⟩
  rename_i ti hcase2
  split
  · rename_i hnone
    have h := hudec (slice (endblockOf dec kd file) ofp (ti - ofp))
    rw [hnone] at h
    exact Bool.noConfusion h
  rename_i s hs
  by_cases hm1 : leU32 (endblockOf dec kd file) ENC_MODE_POS = 1
  · rw [if_pos hm1]
    obtain ⟨r2, hr2⟩ := mode1Apply_ok (endblockOf dec kd file) file (footerSizeOf file)
      (by omega) (hmode1 hm1) (by omega)
    split
    · rename_i e hcase3
      rw [hr2] at hcase3
      exact Except.noConfusion hcase3
    · exact ⟨_, rfl⟩
  · rw [if_neg hm1]
    have hm2l : (mode2Loop (dec aesKey) (aesIvOf file) file).length = file.length :=
      mode2Loop_length (dec aesKey) (fun b => hdec _ b) file.length (aesIvOf file) file
        (le_refl _) hiv
    rw [if_pos (by rw [hm2l]; exact hmode2 hm1)]
    exact ⟨_, rfl⟩

set_option maxRecDepth 100000 in
set_option maxHeartbeats 1000000 in
/-- Witness for phobos_engine_boolean_failures at the concrete
container wFile. -/
theorem phobos_engine_boolean_failures_witness :
    ∃ v, decrypt_file2 (fun _ b => b) (fun _ => some []) wFile
      (List.replicate 128 5 ++ List.replicate 32 7) = Except.ok v :=
  phobos_engine_boolean_failures (fun _ b => b) (fun _ => some []) wFile
    (List.replicate 128 5 ++ List.replicate 32 7)
    (fun _ _ => rfl) (by decide) (fun _ => rfl) (by decide) (by decide)
    (fun h => absurd h (by decide)) (fun _ => by decide)

end Phobos

end Spec2Proof
